import Mathlib

/-!
Verification of the mdv terminal markdown viewer render engine
(`mdv/markdownviewer.py`) against its natural-language specification.

The Python source is shallowly embedded: module-level mutable globals
(the theme colors `H1..H5`, `CH1..CH5` and the `code_hl_tokens` map)
become an explicit state record threaded through `set_theme`; Python
strings become Lean `String`/`List Char`; fallible operations (list
indexing, `str.split` with an empty separator, `dict.values()[0]` on an
empty dict) become `Option`-valued definitions where the Python code can
raise.  Python's `str.splitlines` is modelled for newline-separated text
(the only separator occurring in this program's strings).
-/

namespace Mdv

/-! ### Python string primitives -/

/-- The six characters of Python's ASCII whitespace class
`' \t\n\r\x0b\x0c'` (the set used by `str.strip`, `str.split()` and
`textwrap`). -/
def isPyWS (c : Char) : Bool :=
  c = ' ' || c = '\t' || c = '\n' || c = '\r' || c = '\x0b' || c = '\x0c'

/-- Python `'\n'.join` on character lists. -/
def joinNl : List (List Char) → List Char
  | [] => []
  | [l] => l
  | l :: l2 :: ls => l ++ '\n' :: joinNl (l2 :: ls)

/-- Split a character list at `'\n'` separators (the parts keep no
newline; `n+1` parts for `n` newlines). -/
def splitNl : List Char → List (List Char)
  | [] => [[]]
  | c :: rest =>
    match splitNl rest with
    | [] => [[]]
    | h :: t => if c = '\n' then [] :: h :: t else (c :: h) :: t

/-- Python `str.splitlines` for `\n`-separated text: the `splitNl`
parts, except that a trailing empty part is dropped and the empty
string has no lines. -/
def pySplitlines (s : String) : List String :=
  if s = "" then []
  else
    if ((splitNl s.toList).map (fun l => (⟨l⟩ : String))).getLast? = some "" then
      ((splitNl s.toList).map (fun l => (⟨l⟩ : String))).dropLast
    else (splitNl s.toList).map (fun l => (⟨l⟩ : String))

lemma splitNl_ne_nil (l : List Char) : splitNl l ≠ [] := by
  cases l with
  | nil => simp [splitNl]
  | cons c rest =>
    rcases hsp : splitNl rest with _ | ⟨h, t⟩
    · simp [splitNl, hsp]
    · simp only [splitNl, hsp]
      split <;> simp

/-- A character occurring in any `splitNl` part occurs in the list. -/
lemma mem_of_mem_splitNl (m : Char) (l : List Char) (part : List Char)
    (hp : part ∈ splitNl l) (hm : m ∈ part) : m ∈ l := by
  induction l generalizing part with
  | nil =>
    simp only [splitNl, List.mem_singleton] at hp
    subst hp
    simp at hm
  | cons c rest ih =>
    rcases hsp : splitNl rest with _ | ⟨h, t⟩
    · exact absurd hsp (splitNl_ne_nil rest)
    · simp only [splitNl, hsp] at hp
      by_cases hc : c = '\n'
      · rw [if_pos hc] at hp
        rcases List.mem_cons.mp hp with h1 | h1
        · subst h1
          simp at hm
        · have := ih part (by rw [hsp]; exact h1) hm
          exact List.mem_cons_of_mem c this
      · rw [if_neg hc] at hp
        rcases List.mem_cons.mp hp with h1 | h1
        · subst h1
          rcases List.mem_cons.mp hm with h2 | h2
          · subst h2
            exact List.mem_cons_self m rest
          · have := ih h (by rw [hsp]; exact List.mem_cons_self h t) h2
            exact List.mem_cons_of_mem c this
        · have := ih part (by rw [hsp]; exact List.mem_cons_of_mem h h1) hm
          exact List.mem_cons_of_mem c this

/-- One leftmost, non-overlapping replacement pass of Python
`str.replace` over character lists (all occurrences, scanning left to
right; a nonempty pattern is assumed, as at every call site).  The
fuel argument (a bound on the list length) makes the recursion
structural so that terms evaluate in the kernel. -/
def replaceFuel (pat rep : List Char) : Nat → List Char → List Char
  | _, [] => []
  | 0, l => l
  | n + 1, c :: rest =>
    if pat ≠ [] ∧ pat.isPrefixOf (c :: rest) then
      rep ++ replaceFuel pat rep n (rest.drop (pat.length - 1))
    else
      c :: replaceFuel pat rep n rest

def replaceL (pat rep l : List Char) : List Char :=
  replaceFuel pat rep l.length l

lemma replaceFuel_nil (pat rep : List Char) (n : Nat) :
    replaceFuel pat rep n [] = [] := by
  cases n <;> rfl

/-- Enough fuel makes `replaceFuel` independent of the exact bound. -/
lemma replaceFuel_congr (pat rep : List Char) :
    ∀ n m l, l.length ≤ n → l.length ≤ m →
      replaceFuel pat rep n l = replaceFuel pat rep m l := by
  intro n
  induction n with
  | zero =>
    intro m l hn _
    have : l = [] := List.length_eq_zero.mp (Nat.le_zero.mp hn)
    subst this
    rw [replaceFuel_nil, replaceFuel_nil]
  | succ n ih =>
    intro m l hn hm
    match l with
    | [] => rw [replaceFuel_nil, replaceFuel_nil]
    | c :: rest =>
      cases m with
      | zero => simp at hm
      | succ m =>
        simp only [replaceFuel]
        simp only [List.length_cons] at hn hm
        split
        · rename_i hp
          have hlen : (rest.drop (pat.length - 1)).length ≤ rest.length := by
            simp [List.length_drop]
          rw [ih m (rest.drop (pat.length - 1)) (by omega) (by omega)]
        · rw [ih m rest (by omega) (by omega)]

/-- Python `str.replace` on `String`s. -/
def pyReplace (s pat rep : String) : String :=
  ⟨replaceL pat.toList rep.toList s.toList⟩

/-- Is `pat` a contiguous sublist (substring) of `l`?  Models Python's
`in` operator on strings. -/
def containsL (pat : List Char) : List Char → Bool
  | [] => pat = []
  | c :: rest => pat.isPrefixOf (c :: rest) || containsL pat rest

/-- Python `pat in s` for strings. -/
def pyContains (s pat : String) : Bool :=
  containsL pat.toList s.toList

/-- Python `s.startswith(p)`. -/
def pyStartsWith (s p : String) : Bool := p.toList.isPrefixOf s.toList

/-- Python `s.endswith(p)`. -/
def pyEndsWith (s p : String) : Bool := p.toList.isSuffixOf s.toList

/-- Index of the first occurrence of character `m` in `l` (`none` when
absent). -/
def idxOfChar (m : Char) : List Char → Option Nat
  | [] => none
  | c :: rest =>
    if c = m then some 0
    else (idxOfChar m rest).map (· + 1)

/-- Python `s.ljust(w)`: right-pad with spaces to length `w`. -/
def pyLjust (l : List Char) (w : Nat) : List Char :=
  l ++ List.replicate (w - l.length) ' '

/-- Python `str.capitalize`: first character uppercased, the rest
lowercased. -/
def pyCapitalize (s : String) : String :=
  match s.toList with
  | [] => ""
  | c :: rest => ⟨c.toUpper :: rest.map Char.toLower⟩

/-! ### Config constants (source lines 150-211) -/

def hr_sep : Char := '─'
def txt_block_cut : Char := '✂'
def code_pref : String := "| "
def list_pref : String := "- "
def hr_ends : String := "◈"

/-- Default heading colors `H1..H5` (source line 155). -/
def dfltH : List Nat := [231, 153, 117, 109, 65]
/-- Warning color `R`. -/
def Rcol : Nat := 124
/-- Low-visibility color `L`. -/
def Lcol : Nat := 59
/-- Background color `BG`. -/
def BGcol : Nat := 16
/-- Normal text color `T`. -/
def Tcol : Nat := 188
/-- Code fallback color `C`. -/
def Ccol : Nat := 102

/-- Hierarchical indentation unit. -/
def left_indent : String := "  "

/-- Inline markers (source lines 287-293). -/
def code_start : Char := '\x07'
def code_end : Char := '\x08'
def stng_start : Char := '\x16'
def stng_end : Char := '\x10'
def emph_start : Char := '\x11'
def emph_end : Char := '\x12'
def hr_marker : Char := '\x15'

/-! ### Mutable module state

The Python module keeps the active theme in globals `H1..H5` (headings),
`CH1..CH5` (code) and the dict `code_hl_tokens` (token category to
resolved color).  `MdvState` is that state. -/

structure MdvState where
  hH1 : Nat
  hH2 : Nat
  hH3 : Nat
  hH4 : Nat
  hH5 : Nat
  cH1 : Nat
  cH2 : Nat
  cH3 : Nat
  cH4 : Nat
  cH5 : Nat
  codeHlTokens : List (String × Nat)
deriving Repr, DecidableEq

/-- The state at module load: `CH1..CH5 = H1..H5` (source line 158) and
an empty `code_hl_tokens` dict (source line 270). -/
def initState : MdvState :=
  { hH1 := 231, hH2 := 153, hH3 := 117, hH4 := 109, hH5 := 65
    cH1 := 231, cH2 := 153, cH3 := 117, cH4 := 109, cH5 := 65
    codeHlTokens := [] }

/-- The five active heading colors, in order. -/
def headColors (st : MdvState) : List Nat :=
  [st.hH1, st.hH2, st.hH3, st.hH4, st.hH5]

/-- The five active code colors, in order. -/
def codeColors (st : MdvState) : List Nat :=
  [st.cH1, st.cH2, st.cH3, st.cH4, st.cH5]

/-- `globals()['H%s' % n]` for `n = 1..5`; any other index raises
`KeyError` in Python, hence `none`. -/
def lookupH (st : MdvState) : Nat → Option Nat
  | 1 => some st.hH1
  | 2 => some st.hH2
  | 3 => some st.hH3
  | 4 => some st.hH4
  | 5 => some st.hH5
  | _ => none

/-! ### Code highlight map (source lines 160-168, 273-278) -/

/-- The fixed `code_hl` table: token category name to color *name*. -/
def code_hl : List (String × String) :=
  [("Keyword", "CH3"), ("Name", "CH1"), ("Comment", "L"), ("String", "CH4"),
   ("Error", "R"), ("Number", "CH4"), ("Operator", "CH5"), ("Generic", "CH2")]

/-- `globals()[col]` for the color names occurring in `code_hl`,
resolved against the current state. -/
def resolveColorName (st : MdvState) : String → Nat
  | "CH1" => st.cH1
  | "CH2" => st.cH2
  | "CH3" => st.cH3
  | "CH4" => st.cH4
  | "CH5" => st.cH5
  | "L" => Lcol
  | "R" => Rcol
  | _ => 0

/-- The token-category map freshly derived from the current code colors
(what one run of the `build_hl_by_token` loop computes; since the key
set is the same on every run, updating the dict equals rebuilding it). -/
def hlMapOf (st : MdvState) : List (String × Nat) :=
  code_hl.map (fun p => (p.1, resolveColorName st p.2))

/-- `build_hl_by_token` (source lines 273-278), in the configuration
where pygments imported successfully (`have_pygments = True`); pygments
token objects are represented by their `code_hl` key names. -/
def build_hl_by_token (st : MdvState) : MdvState :=
  { st with codeHlTokens := hlMapOf st }

/-! ### set_theme (source lines 301-351)

The environment is a lookup function, the theme catalog an association
list from theme name to its `'ct'` 5-color list (every entry of the
shipped `ansi_tables.json` carries a `'ct'` list), and the value of
`randint` a parameter `rand`.  `theme_info` only prints, so it is
dropped.  The `try`/`finally` becomes: compute the core result, then
apply `build_hl_by_token` when `for_code` is set. -/

def set_theme_core (env : String → Option String)
    (catalog : List (String × List Nat)) (rand : Nat)
    (theme : Option String) (forCode : Bool) (st : MdvState) : MdvState :=
  let dflt : Option String := if forCode then some "default" else none
  let onDflt : Option String := if forCode then none else some "random"
  let envKeys : List String :=
    if forCode then ["MDV_CODE_THEME", "AXC_CODE_THEME"]
    else ["MDV_THEME", "AXC_THEME"]
  -- for k in dec['env']: ek = envget(k); if ek: theme = ek; break
  let theme :=
    if theme = dflt then
      match (envKeys.filterMap env).filter (· ≠ "") with
      | e :: _ => some e
      | [] => theme
    else theme
  let theme := if theme = dflt then onDflt else theme
  -- if not theme: return
  if theme = none ∨ theme = some "" then st
  else
    let name := theme.getD ""
    -- 'random' picks list(themes.keys())[randint(0, len-1)]
    let name := if name = "random" then (catalog.map Prod.fst).getD rand "" else name
    match catalog.lookup name with
    | none => st
    | some ct =>
      if ct.length = 5 then
        match ct with
        | [a, b, c, d, e] =>
          if forCode then
            { st with cH1 := a, cH2 := b, cH3 := c, cH4 := d, cH5 := e }
          else
            { st with hH1 := a, hH2 := b, hH3 := c, hH4 := d, hH5 := e }
        | _ => st
      else st

/-- `set_theme` including the `finally` clause. -/
def set_theme (env : String → Option String)
    (catalog : List (String × List Nat)) (rand : Nat)
    (theme : Option String) (forCode : Bool) (st : MdvState) : MdvState :=
  let st' := set_theme_core env catalog rand theme forCode st
  if forCode then build_hl_by_token st' else st'

lemma headColors_build_hl (st : MdvState) :
    headColors (build_hl_by_token st) = headColors st := rfl

lemma codeColors_build_hl (st : MdvState) :
    codeColors (build_hl_by_token st) = codeColors st := rfl

/-- **C1.** For every requested theme name (a concrete name: not empty,
not `"random"`, and not the code-path default `"default"` which re-enters
resolution), `set_theme`: when the catalog entry exists with a 5-entry
color list, the five active heading colors (code colors when `for_code`)
are overwritten with those entries in order and the other five are
untouched; when the entry is absent or its list is not of length 5, all
ten active colors are left unchanged. -/
theorem set_theme_five_or_noop
    (env : String → Option String) (catalog : List (String × List Nat))
    (rand : Nat) (name : String) (forCode : Bool) (st : MdvState)
    (hne : name ≠ "") (hnr : name ≠ "random")
    (hnd : forCode = true → name ≠ "default") :
    (∀ ct, catalog.lookup name = some ct → ct.length = 5 →
      (forCode = true →
        codeColors (set_theme env catalog rand (some name) forCode st) = ct ∧
        headColors (set_theme env catalog rand (some name) forCode st)
          = headColors st) ∧
      (forCode = false →
        headColors (set_theme env catalog rand (some name) forCode st) = ct ∧
        codeColors (set_theme env catalog rand (some name) forCode st)
          = codeColors st)) ∧
    ((catalog.lookup name = none ∨
        ∃ ct, catalog.lookup name = some ct ∧ ct.length ≠ 5) →
      headColors (set_theme env catalog rand (some name) forCode st)
        = headColors st ∧
      codeColors (set_theme env catalog rand (some name) forCode st)
        = codeColors st) := by
  have hcore : set_theme_core env catalog rand (some name) forCode st =
      match catalog.lookup name with
      | none => st
      | some ct =>
        if ct.length = 5 then
          match ct with
          | [a, b, c, d, e] =>
            if forCode then
              { st with cH1 := a, cH2 := b, cH3 := c, cH4 := d, cH5 := e }
            else
              { st with hH1 := a, hH2 := b, hH3 := c, hH4 := d, hH5 := e }
          | _ => st
        else st := by
    cases forCode with
    | false => simp [set_theme_core, hne, hnr]
    | true =>
      have hnd' := hnd rfl
      simp [set_theme_core, hne, hnr, hnd']
  have hfull : set_theme env catalog rand (some name) forCode st =
      if forCode then
        build_hl_by_token (set_theme_core env catalog rand (some name) forCode st)
      else set_theme_core env catalog rand (some name) forCode st := rfl
  constructor
  · intro ct hct h5
    rw [hct] at hcore
    simp only [h5, if_true] at hcore
    match ct, h5 with
    | [a, b, c, d, e], _ =>
      constructor
      · intro hfc
        subst hfc
        rw [hfull]
        simp only [if_pos rfl, hcore, if_pos rfl]
        exact ⟨rfl, rfl⟩
      · intro hfc
        subst hfc
        rw [hfull]
        simp only [Bool.false_eq_true, if_false, hcore]
        exact ⟨rfl, rfl⟩
  · intro hbad
    have hid : set_theme_core env catalog rand (some name) forCode st = st := by
      rcases hbad with hnone | ⟨ct, hct, h5⟩
      · rw [hcore, hnone]
      · rw [hcore, hct]
        simp [h5]
    rw [hfull, hid]
    cases forCode <;> simp [headColors_build_hl, codeColors_build_hl]

/-- Witness for C1 at a concrete catalog: a 5-color entry is installed
(heading path), and a 4-color entry is a no-op. -/
theorem set_theme_five_or_noop_witness :
    (∀ ct, (([("good", [1, 2, 3, 4, 5]), ("bad", [7, 8, 9, 10])] :
          List (String × List Nat)).lookup "good") = some ct → ct.length = 5 →
      (false = true →
        codeColors (set_theme (fun _ => none)
          [("good", [1, 2, 3, 4, 5]), ("bad", [7, 8, 9, 10])] 0
          (some "good") false initState) = ct ∧
        headColors (set_theme (fun _ => none)
          [("good", [1, 2, 3, 4, 5]), ("bad", [7, 8, 9, 10])] 0
          (some "good") false initState) = headColors initState) ∧
      (false = false →
        headColors (set_theme (fun _ => none)
          [("good", [1, 2, 3, 4, 5]), ("bad", [7, 8, 9, 10])] 0
          (some "good") false initState) = ct ∧
        codeColors (set_theme (fun _ => none)
          [("good", [1, 2, 3, 4, 5]), ("bad", [7, 8, 9, 10])] 0
          (some "good") false initState) = codeColors initState)) ∧
    ((([("good", [1, 2, 3, 4, 5]), ("bad", [7, 8, 9, 10])] :
          List (String × List Nat)).lookup "good") = none ∨
      (∃ ct, (([("good", [1, 2, 3, 4, 5]), ("bad", [7, 8, 9, 10])] :
          List (String × List Nat)).lookup "good") = some ct ∧ ct.length ≠ 5) →
      headColors (set_theme (fun _ => none)
        [("good", [1, 2, 3, 4, 5]), ("bad", [7, 8, 9, 10])] 0
        (some "good") false initState) = headColors initState ∧
      codeColors (set_theme (fun _ => none)
        [("good", [1, 2, 3, 4, 5]), ("bad", [7, 8, 9, 10])] 0
        (some "good") false initState) = codeColors initState) :=
  set_theme_five_or_noop (fun _ => none)
    [("good", [1, 2, 3, 4, 5]), ("bad", [7, 8, 9, 10])] 0 "good" false initState
    (by decide) (by decide) (fun h => by cases h)

/-! ### Coloring (source lines 384-420) -/

/-- `String` of one character. -/
def strOfChar (c : Char) : String := ⟨[c]⟩

/-- The ANSI 256-color foreground escape `'\033[38;5;%sm' % c`. -/
def ansiFg (c : Nat) : String := "\x1b[38;5;" ++ toString c ++ "m"

def reset_col : String := "\x1b[0m"

/-- `col(s, c, bg, no_reset)` (source lines 389-408).  The recursive
inner calls `col('', _col, bg=background, no_reset=1)` and
`col('', c, no_reset=1)` reduce to the bare foreground escapes
`ansiFg _col` / `ansiFg c` (empty payload, no reset), which is what is
substituted here.  `bg` is accepted and ignored, as in the source
(`if bg: pass`). -/
def col (st : MdvState) (s : String) (c : Nat) (bg : Nat) (noReset : Bool) : String :=
  let reset := if noReset then "" else reset_col
  let s :=
    if pyContains s (strOfChar code_start) then
      pyReplace (pyReplace s (strOfChar code_start) (ansiFg st.hH2))
        (strOfChar code_end) (ansiFg c)
    else s
  let s :=
    if pyContains s (strOfChar stng_start) then
      pyReplace (pyReplace s (strOfChar stng_start) (ansiFg st.hH2))
        (strOfChar stng_end) (ansiFg c)
    else s
  let s :=
    if pyContains s (strOfChar emph_start) then
      pyReplace (pyReplace s (strOfChar emph_start) (ansiFg st.hH3))
        (strOfChar emph_end) (ansiFg c)
    else s
  let _ := bg
  ansiFg c ++ s ++ reset

/-- `low(s) = col(s, L)`. -/
def low (st : MdvState) (s : String) : String := col st s Lcol 0 false

/-- Python `s * n` for strings (`n` copies). -/
def pyRepeatStr (s : String) (n : Nat) : String :=
  String.join (List.replicate n s)

/-! ### Tags.hr (source lines 446-451) and claim C4 -/

/-- `Tags.hr`: emits the rule placeholder line.  The color lookup
`globals()['H%s' % hir]` raises `KeyError` outside `1..5`, hence
`Option`.  `ind = (hir - 1) * left_indent` (for `hir = 0` Python's
negative string repetition gives `''`, matching `Nat` truncation). -/
def Tags.hr (st : MdvState) (hir : Nat) : Option String :=
  match lookupH st hir with
  | none => none
  | some h =>
    let ind := pyRepeatStr left_indent (hir - 1)
    let s := col st hr_ends h 0 false
    some (low st ("\n" ++ ind ++ s ++ strOfChar hr_marker ++ s ++ ind ++ "\n"))

/-- The rule emission as claim C4 words it: the glyphs colored with
heading color number `((hir - 2) mod 5) + 1` (Python signed `%`). -/
def hrSpecClaim (st : MdvState) (hir : Nat) : Option String :=
  match lookupH st ((((hir : Int) - 2) % 5 + 1).toNat) with
  | none => none
  | some h =>
    let ind := pyRepeatStr left_indent (hir - 1)
    let s := col st hr_ends h 0 false
    some (low st ("\n" ++ ind ++ s ++ strOfChar hr_marker ++ s ++ ind ++ "\n"))

/-- **C4, counterexample.** At hierarchy level 1 (an `hr` at document
top level) the code colors the rule glyphs with `H1`, but the claimed
formula `((1 - 2) mod 5) + 1 = 5` selects `H5`; with the default palette
(`H1 = 231`, `H5 = 65`) the emitted strings differ. -/
theorem hr_color_claim_false :
    Tags.hr initState 1 ≠ hrSpecClaim initState 1 := by decide

/-- **C4, amended.** For every `hr` node at hierarchy level `hir` with
`1 ≤ hir ≤ 5`, the Block Formatter emits the rule placeholder colored
with heading color number `hir` itself (entry `hir` of the active
heading colors); outside `1..5` the color lookup fails. -/
theorem hr_color_is_hir (st : MdvState) (hir : Nat)
    (h1 : 1 ≤ hir) (h5 : hir ≤ 5) :
    Tags.hr st hir =
      some (low st ("\n" ++ pyRepeatStr left_indent (hir - 1)
        ++ col st hr_ends ((headColors st).getD (hir - 1) 0) 0 false
        ++ strOfChar hr_marker
        ++ col st hr_ends ((headColors st).getD (hir - 1) 0) 0 false
        ++ pyRepeatStr left_indent (hir - 1) ++ "\n")) := by
  interval_cases hir <;> rfl

/-- Witness for the amended C4 at `hir = 2`. -/
theorem hr_color_is_hir_witness :
    Tags.hr initState 2 =
      some (low initState ("\n" ++ pyRepeatStr left_indent (2 - 1)
        ++ col initState hr_ends ((headColors initState).getD (2 - 1) 0) 0 false
        ++ strOfChar hr_marker
        ++ col initState hr_ends ((headColors initState).getD (2 - 1) 0) 0 false
        ++ pyRepeatStr left_indent (2 - 1) ++ "\n")) :=
  hr_color_is_hir initState 2 (by decide) (by decide)

/-- **C10.** Every `set_theme` call with `for_code` set rebuilds the
token-category highlight map in the `finally` clause, so the returned
state's map is exactly the map derived from its own active code colors,
on every resolution path (no-op paths included). -/
theorem set_theme_forCode_hl_consistent
    (env : String → Option String) (catalog : List (String × List Nat))
    (rand : Nat) (theme : Option String) (st : MdvState) :
    (set_theme env catalog rand theme true st).codeHlTokens
      = hlMapOf (set_theme env catalog rand theme true st) := by
  simp only [set_theme, if_pos rfl]
  rfl

/-! ### clean_ansi (source lines 281-284)

`re.sub(r'\x1b[^m]*m', '', s)`: scanning left to right, an `ESC` that
has some `'m'` later in the string starts a match reaching to the first
such `'m'`; an `ESC` with no `'m'` after it matches nothing and is
kept. -/

lemma dropWhile_length_le (p : Char → Bool) (l : List Char) :
    (l.dropWhile p).length ≤ l.length := by
  induction l with
  | nil => simp
  | cons c rest ih =>
    simp only [List.dropWhile_cons]
    split
    · simp only [List.length_cons]
      omega
    · simp

/-- `clean_ansi` scanner with structural fuel (a bound on the list
length). -/
def cleanAnsiFuel : Nat → List Char → List Char
  | _, [] => []
  | 0, l => l
  | n + 1, c :: rest =>
    if c = '\x1b' ∧ 'm' ∈ rest then
      cleanAnsiFuel n ((rest.dropWhile (· ≠ 'm')).tail)
    else c :: cleanAnsiFuel n rest

def cleanAnsiL (l : List Char) : List Char :=
  cleanAnsiFuel l.length l

def clean_ansi (s : String) : String := ⟨cleanAnsiL s.toList⟩

lemma dropWhile_tail_length_lt (m : Char) (rest : List Char) (hm : m ∈ rest) :
    ((rest.dropWhile (· ≠ m)).tail).length < rest.length := by
  have h1 := dropWhile_length_le (fun c => decide (c ≠ m)) rest
  have hne : rest.dropWhile (· ≠ m) ≠ [] := by
    intro hnil
    have := List.dropWhile_eq_nil_iff.mp hnil m hm
    simp at this
  have h2 : (rest.dropWhile (· ≠ m)).length ≥ 1 := by
    cases hdw : rest.dropWhile (· ≠ m) with
    | nil => exact absurd hdw hne
    | cons d ds => simp
  have h3 := List.length_tail (rest.dropWhile (· ≠ m))
  have h4 : rest.length ≥ 1 := by
    cases rest with
    | nil => simp at hm
    | cons a b => simp
  omega

lemma cleanAnsiFuel_nil (n : Nat) : cleanAnsiFuel n [] = [] := by
  cases n <;> rfl

lemma cleanAnsiFuel_congr :
    ∀ n m l, l.length ≤ n → l.length ≤ m →
      cleanAnsiFuel n l = cleanAnsiFuel m l := by
  intro n
  induction n with
  | zero =>
    intro m l hn _
    have : l = [] := List.length_eq_zero.mp (Nat.le_zero.mp hn)
    subst this
    rw [cleanAnsiFuel_nil, cleanAnsiFuel_nil]
  | succ n ih =>
    intro m l hn hm
    match l with
    | [] => rw [cleanAnsiFuel_nil, cleanAnsiFuel_nil]
    | c :: rest =>
      cases m with
      | zero => simp at hm
      | succ m =>
        simp only [cleanAnsiFuel]
        simp only [List.length_cons] at hn hm
        split
        · rename_i hp
          have := dropWhile_tail_length_lt 'm' rest hp.2
          rw [ih m _ (by omega) (by omega)]
        · rw [ih m rest (by omega) (by omega)]

lemma cleanAnsiL_cons_esc (c : Char) (rest : List Char)
    (h : c = '\x1b' ∧ 'm' ∈ rest) :
    cleanAnsiL (c :: rest) = cleanAnsiL ((rest.dropWhile (· ≠ 'm')).tail) := by
  have := dropWhile_tail_length_lt 'm' rest h.2
  simp only [cleanAnsiL, List.length_cons, cleanAnsiFuel, if_pos h]
  exact cleanAnsiFuel_congr _ _ _ (by omega) le_rfl

lemma cleanAnsiL_cons_keep (c : Char) (rest : List Char)
    (h : ¬(c = '\x1b' ∧ 'm' ∈ rest)) :
    cleanAnsiL (c :: rest) = c :: cleanAnsiL rest := by
  simp only [cleanAnsiL, List.length_cons, cleanAnsiFuel, if_neg h]

lemma cleanAnsiL_length_le (l : List Char) : (cleanAnsiL l).length ≤ l.length := by
  have H : ∀ n (l : List Char), l.length ≤ n → (cleanAnsiL l).length ≤ l.length := by
    intro n
    induction n with
    | zero =>
      intro l hl
      have : l = [] := List.length_eq_zero.mp (Nat.le_zero.mp hl)
      subst this
      rfl
    | succ n ih =>
      intro l hl
      match l with
      | [] => simp [cleanAnsiL, cleanAnsiFuel]
      | c :: rest =>
        simp only [List.length_cons] at hl
        by_cases h : c = '\x1b' ∧ 'm' ∈ rest
        · rw [cleanAnsiL_cons_esc c rest h]
          have hlt := dropWhile_tail_length_lt 'm' rest h.2
          have := ih _ (by omega : ((rest.dropWhile (· ≠ 'm')).tail).length ≤ n)
          simp only [List.length_cons]
          omega
        · rw [cleanAnsiL_cons_keep c rest h]
          have := ih rest (by omega)
          simp only [List.length_cons]
          omega
  exact H l.length l le_rfl

lemma clean_ansi_length_le (s : String) :
    (clean_ansi s).length ≤ s.length := by
  exact cleanAnsiL_length_le s.toList

lemma dropWhile_append_of_mem (m : Char) (l l2 : List Char) (hm : m ∈ l) :
    (l ++ l2).dropWhile (· ≠ m) = l.dropWhile (· ≠ m) ++ l2 := by
  induction l with
  | nil => simp at hm
  | cons c rest ih =>
    simp only [List.cons_append, List.dropWhile_cons]
    by_cases hc : c = m
    · subst hc
      simp
    · have hm' : m ∈ rest := by
        rcases List.mem_cons.mp hm with h | h
        · exact absurd h.symm hc
        · exact h
      have ih' := ih hm'
      simp only [ne_eq, decide_not] at ih' ⊢
      simp [hc, ih']

/-- Appending a non-`'m'` character (here `'\n'`) commutes with the
escape-stripping scanner. -/
lemma cleanAnsiL_append_nl (c : Char) (hm : c ≠ 'm') (hesc : c ≠ '\x1b') :
    ∀ l : List Char, cleanAnsiL (l ++ [c]) = cleanAnsiL l ++ [c] := by
  have H : ∀ n (l : List Char), l.length ≤ n →
      cleanAnsiL (l ++ [c]) = cleanAnsiL l ++ [c] := by
    intro n
    induction n with
    | zero =>
      intro l hl
      have : l = [] := List.length_eq_zero.mp (Nat.le_zero.mp hl)
      subst this
      simp only [List.nil_append]
      rw [cleanAnsiL_cons_keep c [] (by simp [hesc])]
      rfl
    | succ n ih =>
      intro l hl
      match l with
      | [] =>
        simp only [List.nil_append]
        rw [cleanAnsiL_cons_keep c [] (by simp [hesc])]
        rfl
      | a :: rest =>
        simp only [List.length_cons] at hl
        simp only [List.cons_append]
        by_cases ha : a = '\x1b' ∧ 'm' ∈ rest
        · have ha' : a = '\x1b' ∧ 'm' ∈ rest ++ [c] := ⟨ha.1, by simp [ha.2]⟩
          rw [cleanAnsiL_cons_esc a _ ha', cleanAnsiL_cons_esc a rest ha]
          rw [dropWhile_append_of_mem 'm' rest [c] ha.2]
          have hne : rest.dropWhile (· ≠ 'm') ≠ [] := by
            intro hnil
            have := List.dropWhile_eq_nil_iff.mp hnil 'm' ha.2
            simp at this
          match hdw : rest.dropWhile (· ≠ 'm') with
          | [] => exact absurd hdw hne
          | d :: ds =>
            simp only [List.cons_append, List.tail_cons]
            have hlen : ds.length ≤ n := by
              have h1 := dropWhile_length_le (fun c => decide (c ≠ 'm')) rest
              rw [hdw] at h1
              simp only [List.length_cons] at h1
              omega
            exact ih ds hlen
        · have ha2 : ¬(a = '\x1b' ∧ 'm' ∈ rest ++ [c]) := by
            intro hcontra
            rcases hcontra with ⟨he, hmem⟩
            rcases List.mem_append.mp hmem with h | h
            · exact ha ⟨he, h⟩
            · simp at h
              exact hm h.symm
          rw [cleanAnsiL_cons_keep a _ ha2, cleanAnsiL_cons_keep a rest ha]
          rw [ih rest (by omega)]
          simp
  intro l
  exact H l.length l le_rfl

lemma clean_ansi_append_nl (s : String) :
    clean_ansi (s ++ "\n") = clean_ansi s ++ "\n" := by
  have h := cleanAnsiL_append_nl '\n' (by decide) (by decide) s.toList
  apply String.ext
  have hto : (s ++ "\n").toList = s.toList ++ ['\n'] := by
    simp [String.toList, String.data_append]
  simp only [clean_ansi, hto]
  simpa [clean_ansi] using h

/-! ### set_hr_widths (source lines 794-823) and claim C5 -/

def hr_markerS : String := strOfChar hr_marker

/-- `set_hr_widths`.  `none` marks the `IndexError` Python raises when
an hr line's marker was itself consumed by `clean_ansi` (an escape
sequence swallowing `\x15`), which cannot happen for rendered text. -/
def set_hr_widths (tc : Nat) (result : String) : Option String :=
  if ¬ pyContains result hr_markerS then some result
  else
    let ls := pySplitlines result
    let mw := ls.foldl (fun mw line =>
      if pyContains line hr_markerS then mw
      else if line.length < mw then mw
      else if (clean_ansi line).length > mw then (clean_ansi line).length
      else mw) 0
    let hrs := ls.filter (fun line => pyContains line hr_markerS)
    hrs.foldlM (fun acc hr =>
      if pyContains (clean_ansi hr) hr_markerS then
        some (pyReplace acc hr
          (pyReplace hr hr_markerS
            ⟨List.replicate
              ((min tc mw : Int)
                - 2 * (((clean_ansi hr).length
                  - ((((clean_ansi hr).toList.dropWhile (· ≠ hr_marker)).tail).length)
                  - 1 : Nat) : Int)).toNat hr_sep⟩))
      else none) result

/-- Maximum escape-stripped printable width over the lines that carry no
rule placeholder, as the claim words it. -/
def specMaxWidth (result : String) : Nat :=
  ((pySplitlines result).filter
    (fun l => !(pyContains l hr_markerS))).foldl
      (fun m l => max m (clean_ansi l).length) 0

/-- Escape-stripped printable offset of the rule marker within its line:
the length of the cleaned prefix before the first marker. -/
def specOffset (hr : String) : Nat :=
  ((clean_ansi hr).toList.takeWhile (· ≠ hr_marker)).length

/-- The rendered rule width the claim prescribes. -/
def specHrWidth (tc : Nat) (result : String) (hr : String) : Nat :=
  ((min tc (specMaxWidth result) : Int) - 2 * (specOffset hr : Int)).toNat

/-- The rule-placeholder lines of the joined text. -/
def hrLines (result : String) : List String :=
  (pySplitlines result).filter (fun line => pyContains line hr_markerS)

lemma containsL_singleton (m : Char) (l : List Char) :
    containsL [m] l = true ↔ m ∈ l := by
  induction l with
  | nil => simp [containsL]
  | cons c rest ih =>
    simp only [containsL, List.isPrefixOf, Bool.or_eq_true, List.mem_cons]
    constructor
    · rintro (h | h)
      · simp only [Bool.and_eq_true, beq_iff_eq] at h
        exact Or.inl h.1
      · exact Or.inr (ih.mp h)
    · rintro (h | h)
      · subst h
        left
        simp [List.isPrefixOf]
      · exact Or.inr (ih.mpr h)

lemma pyContains_marker_iff (s : String) :
    pyContains s hr_markerS = true ↔ hr_marker ∈ s.toList := by
  simpa [pyContains, hr_markerS, strOfChar] using
    containsL_singleton hr_marker s.toList

/-- The `mw` fold of `set_hr_widths` (with its raw-length shortcut)
computes the claim's maximum cleaned width over non-placeholder lines. -/
lemma mwFold_eq_specMax (ls : List String) :
    ∀ acc, ls.foldl (fun mw line =>
      if pyContains line hr_markerS then mw
      else if line.length < mw then mw
      else if (clean_ansi line).length > mw then (clean_ansi line).length
      else mw) acc
      = (ls.filter (fun l => !(pyContains l hr_markerS))).foldl
          (fun m l => max m (clean_ansi l).length) acc := by
  induction ls with
  | nil => intro acc; rfl
  | cons line rest ih =>
    intro acc
    simp only [List.foldl_cons, List.filter_cons]
    by_cases hmk : pyContains line hr_markerS = true
    · simp only [hmk, if_pos trivial, Bool.not_true]
      rw [if_neg (by simp)]
      exact ih acc
    · have hf : pyContains line hr_markerS = false := by simpa using hmk
      have hle := clean_ansi_length_le line
      simp only [hf, Bool.not_false, Bool.false_eq_true, if_false]
      rw [if_pos trivial]
      simp only [List.foldl_cons]
      have hstep : (if line.length < acc then acc
          else if (clean_ansi line).length > acc then (clean_ansi line).length
          else acc) = max acc (clean_ansi line).length := by
        split
        · omega
        · split <;> omega
      rw [hstep]
      exact ih _

/-- The code's indent arithmetic
`len(hcl) - len(hcl.split(marker, 1)[1]) - 1` is the printable offset of
the first marker. -/
lemma indent_eq_specOffset (hcl : List Char) (hm : hr_marker ∈ hcl) :
    hcl.length - ((hcl.dropWhile (· ≠ hr_marker)).tail).length - 1
      = (hcl.takeWhile (· ≠ hr_marker)).length := by
  have hsplit := List.takeWhile_append_dropWhile
    (p := fun c => decide (c ≠ hr_marker)) (l := hcl)
  have hlen : (hcl.takeWhile (· ≠ hr_marker)).length
      + (hcl.dropWhile (· ≠ hr_marker)).length = hcl.length := by
    conv_rhs => rw [← hsplit]
    rw [List.length_append]
  have hne : hcl.dropWhile (· ≠ hr_marker) ≠ [] := by
    intro hnil
    have := List.dropWhile_eq_nil_iff.mp hnil hr_marker hm
    simp at this
  have hd1 : 1 ≤ (hcl.dropWhile (· ≠ hr_marker)).length := by
    cases hdw : hcl.dropWhile (· ≠ hr_marker) with
    | nil => exact absurd hdw hne
    | cons d ds => simp
  have htail := List.length_tail (hcl.dropWhile (· ≠ hr_marker))
  omega

lemma foldlM_option_eq_foldl {α β : Type} (f : β → α → Option β)
    (g : β → α → β) (xs : List α) (b : β)
    (h : ∀ b a, a ∈ xs → f b a = some (g b a)) :
    xs.foldlM f b = some (xs.foldl g b) := by
  induction xs generalizing b with
  | nil => rfl
  | cons x rest ih =>
    simp only [List.foldlM_cons, List.foldl_cons]
    rw [h b x (List.mem_cons_self x rest)]
    exact ih (g b x) (fun b a ha => h b a (List.mem_cons_of_mem x ha))

/-- **C5.** For every rule placeholder line in the final joined text
(whose marker survives escape stripping, as holds for all rendered
text), `set_hr_widths` replaces that line by the line with the marker
expanded to exactly `w` rule characters, where
`w = min(terminal_columns, max cleaned width over non-placeholder
lines) - 2 * indent` and `indent` is the escape-stripped printable
offset of the marker in its line. -/
theorem set_hr_widths_formula (tc : Nat) (result : String)
    (hsur : ∀ hr ∈ hrLines result, pyContains (clean_ansi hr) hr_markerS = true) :
    set_hr_widths tc result
      = some ((hrLines result).foldl
          (fun acc hr => pyReplace acc hr
            (pyReplace hr hr_markerS
              ⟨List.replicate (specHrWidth tc result hr) hr_sep⟩)) result) := by
  by_cases htop : pyContains result hr_markerS = true
  · rw [set_hr_widths, if_neg (not_not_intro htop)]
    rw [foldlM_option_eq_foldl _
      (fun acc hr => pyReplace acc hr
        (pyReplace hr hr_markerS
          ⟨List.replicate (specHrWidth tc result hr) hr_sep⟩))]
    · rfl
    · intro b hr hmem
      have hcl := hsur hr hmem
      rw [if_pos hcl]
      have hm : hr_marker ∈ (clean_ansi hr).toList :=
        (pyContains_marker_iff _).mp hcl
      have hind := indent_eq_specOffset (clean_ansi hr).toList hm
      have hoff : ((clean_ansi hr).length
            - ((((clean_ansi hr).toList.dropWhile (· ≠ hr_marker)).tail).length)
            - 1 : Nat)
          = specOffset hr := hind
      rw [hoff, mwFold_eq_specMax]
      rfl
  · rw [set_hr_widths, if_pos htop]
    have hempty : hrLines result = [] := by
      rw [hrLines, List.filter_eq_nil_iff]
      intro line hline hcont
      apply htop
      have hm : hr_marker ∈ line.toList := (pyContains_marker_iff line).mp hcont
      have hpart : ∃ part ∈ splitNl result.toList, line = (⟨part⟩ : String) := by
        unfold pySplitlines at hline
        by_cases hres : result = ""
        · rw [if_pos hres] at hline
          simp at hline
        · rw [if_neg hres] at hline
          have hline' : line ∈ (splitNl result.toList).map
              (fun l => (⟨l⟩ : String)) := by
            split at hline
            · exact List.mem_of_mem_dropLast hline
            · exact hline
          rcases List.mem_map.mp hline' with ⟨part, hp, he⟩
          exact ⟨part, hp, he.symm⟩
      rcases hpart with ⟨part, hp, he⟩
      subst he
      rw [pyContains_marker_iff]
      exact mem_of_mem_splitNl hr_marker result.toList part hp hm
    rw [hempty]
    rfl

/-! ### The tail of `main` (source lines 1030-1033) and claim C8

`main` ends with
`ansi = set_hr_widths(ansi) + '\n'; if no_colors: return clean_ansi(ansi);
return ansi + '\n'` — everything before that line is shared between the
two modes, so the no-colors relationship is decided by this fragment,
modelled over the pre-final `ansi` string. -/

def mainFinal (tc : Nat) (ansi : String) (noColors : Bool) : Option String :=
  (set_hr_widths tc ansi).map (fun shw =>
    let a := shw ++ "\n"
    if noColors then clean_ansi a else a ++ "\n")

/-- **C8, counterexample.** The colored return carries one more trailing
newline than the no-colors return: stripping the escapes from the
colored output of `main` does not give the no-colors output (they differ
by a final `'\n'`), already for the plain one-character document
rendering `"x"`. -/
theorem no_colors_not_strip_of_colored :
    (mainFinal 80 "x" false).map clean_ansi ≠ mainFinal 80 "x" true := by
  decide

/-- **C8, amended.** For every rendered string and terminal width, the
no-colors return of `main` followed by one extra newline equals the
colored return with every ANSI escape sequence removed; i.e. the two
modes agree up to escape stripping except that the colored mode appends
one additional trailing newline. -/
theorem no_colors_is_strip_plus_newline (tc : Nat) (ansi : String) :
    (mainFinal tc ansi true).map (fun s => s ++ "\n")
      = (mainFinal tc ansi false).map clean_ansi := by
  cases hs : set_hr_widths tc ansi with
  | none => simp [mainFinal, hs]
  | some shw =>
    have key : clean_ansi (shw ++ "\n" ++ "\n") = clean_ansi (shw ++ "\n") ++ "\n" :=
      clean_ansi_append_nl (shw ++ "\n")
    simp [mainFinal, hs, key]

/-- Witness for C5: one text line of width 6 and one placeholder line
with printable offset 1, at 4 terminal columns. -/
theorem set_hr_widths_formula_witness :
    (∀ hr ∈ hrLines "abcdef\n \x15x", pyContains (clean_ansi hr) hr_markerS = true) ∧
    set_hr_widths 4 "abcdef\n \x15x"
      = some ((hrLines "abcdef\n \x15x").foldl
          (fun acc hr => pyReplace acc hr
            (pyReplace hr hr_markerS
              ⟨List.replicate (specHrWidth 4 "abcdef\n \x15x" hr) hr_sep⟩))
          "abcdef\n \x15x") :=
  ⟨by decide, set_hr_widths_formula 4 "abcdef\n \x15x" (by decide)⟩

/-! ### textwrap (Python standard library, used by `rewrap`)

`rewrap` (source lines 494-508) delegates to `textwrap.dedent` and
`textwrap.fill` with all `TextWrapper` options at their defaults
(`expand_tabs=True`, `tabsize=8`, `replace_whitespace=True`,
`drop_whitespace=True`, `break_long_words=True`, `break_on_hyphens=True`,
`max_lines=None`).  They are embedded here from CPython's
`Lib/textwrap.py`.  Character classes follow the ASCII reading of the
regex classes (`\w`, `[^\d\W]`). -/

def isSpaceTab (c : Char) : Bool := c = ' ' || c = '\t'

/-- Longest common prefix of two character lists. -/
def lcp : List Char → List Char → List Char
  | a :: as, b :: bs => if a = b then a :: lcp as bs else []
  | _, _ => []

/-- `textwrap.dedent`: blank the whitespace-only lines, compute the
common leading space/tab margin over lines that own a non-space/tab
character, and strip that margin from every line that starts with it. -/
def pyDedentL (t : List Char) : List Char :=
  let ls := (splitNl t).map (fun l => if l ≠ [] ∧ l.all isSpaceTab then [] else l)
  let contribs := ls.filterMap (fun l =>
    if (l.dropWhile isSpaceTab).isEmpty then none
    else some (l.takeWhile isSpaceTab))
  let margin := match contribs with
    | [] => []
    | c :: cs => cs.foldl lcp c
  let ls2 := if margin = [] then ls
    else ls.map (fun l =>
      if margin.isPrefixOf l then l.drop margin.length else l)
  joinNl ls2

/-- Python `str.strip()` (over the six ASCII whitespace characters). -/
def pyStripL (l : List Char) : List Char :=
  ((l.dropWhile isPyWS).reverse.dropWhile isPyWS).reverse

/-- Python `str.expandtabs(8)`: the column counter resets at `'\n'` and
`'\r'`. -/
def expandTabs (colPos : Nat) : List Char → List Char
  | [] => []
  | c :: rest =>
    if c = '\t' then
      List.replicate (8 - colPos % 8) ' ' ++ expandTabs (colPos + (8 - colPos % 8)) rest
    else if c = '\n' ∨ c = '\r' then c :: expandTabs 0 rest
    else c :: expandTabs (colPos + 1) rest

/-- `TextWrapper._munge_whitespace`: expand tabs, then translate each
whitespace character to a space. -/
def mungeWs (t : List Char) : List Char :=
  (expandTabs 0 t).map (fun c => if isPyWS c then ' ' else c)

/-- ASCII `\w`. -/
def isWordChar (c : Char) : Bool := c.isAlphanum || c = '_'

/-- ASCII `[^\d\W]` (word character that is not a digit). -/
def isLetterLike (c : Char) : Bool := isWordChar c && !c.isDigit

/-- The lookahead `(?=[^\d\W]-?[^\d\W])` of the hyphenated-word rule. -/
def lookaheadOk : List Char → Bool
  | a :: b :: rest =>
    isLetterLike a &&
      (isLetterLike b ||
        (b = '-' && (match rest with | c :: _ => isLetterLike c | [] => false)))
  | _ => false

/-- The lookbehinds `(?<=[^\d\W]{2}-)` / `(?<=[^\d\W]-[^\d\W]-)` of the
hyphenated-word rule, `rw` being the reversed characters before the
hyphen (chunk-crossing, as regex lookbehind sees the whole string). -/
def hyphenLookbehind (rw : List Char) : Bool :=
  (match rw with
   | b :: a :: _ => isLetterLike a && isLetterLike b
   | _ => false) ||
  (match rw with
   | b :: '-' :: a :: _ => isLetterLike a && isLetterLike b
   | _ => false)

/-- Characters allowed right before an em-dash break:
`[\w!"\'&.,?]`. -/
def isEmDashPrev (c : Char) : Bool :=
  isWordChar c || c = '!' || c = '"' || c = '\'' || c = '&' || c = '.' ||
    c = ',' || c = '?'

/-- Does `r` (starting with hyphens) consist of a maximal hyphen run
followed by a word character (`-{2,}\w` with backtracking)? -/
def afterHyphenRunWord (r : List Char) : Bool :=
  match r.dropWhile (· = '-') with
  | c :: _ => isWordChar c
  | [] => false

/-- The em-dash tail `(?<=[\w!"\'&.,?])(?=-{2,}\w)`, `acc` being the
reversed characters consumed in the current chunk (nonempty). -/
def emDashAhead (acc : List Char) (r : List Char) : Bool :=
  match acc with
  | p :: _ =>
    isEmDashPrev p &&
      (match r with
       | '-' :: '-' :: _ => afterHyphenRunWord r
       | _ => false)
  | [] => false

/-- Scan one word chunk (`\S+?` with its three tail alternatives, lazy:
the chunk ends at the earliest matching position).  `ctx` is the
reversed text before the chunk, `acc` the reversed characters consumed
so far (nonempty), `r` the remainder.  Returns (chunk, rest). -/
def wordScan (pat : Unit) : Nat → List Char → List Char → List Char →
    List Char × List Char
  | 0, _, acc, r => (acc.reverse, r)
  | fuel + 1, ctx, acc, r =>
    match r with
    | [] => (acc.reverse, [])
    | c :: r2 =>
      if c = '-' ∧ hyphenLookbehind (acc ++ ctx) ∧ lookaheadOk r2 then
        (acc.reverse ++ [c], r2)
      else if isPyWS c then
        (acc.reverse, c :: r2)
      else if emDashAhead acc (c :: r2) then
        (acc.reverse, c :: r2)
      else wordScan pat fuel ctx (c :: acc) r2

/-- Does an em-dash chunk (`(?<=\w)-{2,}(?=\w)`) start here?  `hist` is
the reversed text before this position. -/
def emDashChunkStart (hist r : List Char) : Bool :=
  (match hist with | p :: _ => isWordChar p | [] => false) &&
  (match r with | '-' :: '-' :: _ => true | _ => false) &&
  afterHyphenRunWord r

/-- The full `wordsep_re` scanner: whitespace runs, em-dash runs between
word characters, and words (possibly split at hyphens). `hist` is the
reversed text already consumed. -/
def pyChunksAux : Nat → List Char → List Char → List (List Char)
  | 0, _, _ => []
  | fuel + 1, hist, r =>
    match r with
    | [] => []
    | c :: rtail =>
      if isPyWS c then
        (r.takeWhile isPyWS) ::
          pyChunksAux fuel ((r.takeWhile isPyWS).reverse ++ hist)
            (r.dropWhile isPyWS)
      else if emDashChunkStart hist r then
        (r.takeWhile (· = '-')) ::
          pyChunksAux fuel ((r.takeWhile (· = '-')).reverse ++ hist)
            (r.dropWhile (· = '-'))
      else
        ((wordScan () fuel hist [c] rtail).1) ::
          pyChunksAux fuel
            (((wordScan () fuel hist [c] rtail).1).reverse ++ hist)
            ((wordScan () fuel hist [c] rtail).2)

/-- `TextWrapper._split` (chunking plus the empty-chunk filter). -/
def pyChunksOf (t : List Char) : List (List Char) :=
  (pyChunksAux (t.length + 1) [] t).filter (· ≠ [])

/-- The greedy inner `while` of `_wrap_chunks`: move whole chunks onto
the current line while they fit. -/
def splitFits (width : Nat) : Nat → List (List Char) →
    List (List Char) × List (List Char)
  | _, [] => ([], [])
  | curLen, c :: cs =>
    if curLen + c.length ≤ width then
      ((c :: (splitFits width (curLen + c.length) cs).1),
        (splitFits width (curLen + c.length) cs).2)
    else ([], c :: cs)

/-- Index of the last occurrence of `c` in `l` (`str.rfind`). -/
def rfindAux (c : Char) : List Char → Option Nat
  | [] => none
  | x :: xs =>
    match rfindAux c xs with
    | some i => some (i + 1)
    | none => if x = c then some 0 else none

/-- `chunk.rfind('-', 0, bound)`. -/
def pyRfind (c : Char) (l : List Char) (bound : Nat) : Option Nat :=
  rfindAux c (l.take bound)

/-- `chunk.strip() == ''` (true also for the empty chunk). -/
def isWsChunk (c : List Char) : Bool := c.all isPyWS

/-- `TextWrapper._handle_long_word` with `break_long_words` and
`break_on_hyphens` set: returns the piece moved onto the current line
and the remainder of the chunk.  (`cur_len ≤ width` holds at every call
site, so the `Nat` subtraction is exact.) -/
def handleLongWord (width curLen : Nat) (chunk : List Char) :
    List Char × List Char :=
  let spaceLeft := if width < 1 then 1 else width - curLen
  let endIdx :=
    if chunk.length > spaceLeft then
      match pyRfind '-' chunk spaceLeft with
      | some hyphen =>
        if 0 < hyphen ∧ (chunk.take hyphen).any (· ≠ '-') then hyphen + 1
        else spaceLeft
      | none => spaceLeft
    else spaceLeft
  (chunk.take endIdx, chunk.drop endIdx)

/-- The trailing-whitespace drop of `_wrap_chunks`
(`if drop_whitespace and cur_line and cur_line[-1].strip() == ''`). -/
def dropTrailWs (tk : List (List Char)) : List (List Char) :=
  match tk.getLast? with
  | some lastC => if isWsChunk lastC then tk.dropLast else tk
  | none => tk

/-- `_handle_long_word` dispatch (the `if chunks and len(chunks[-1]) >
self.width` test) followed by the trailing-whitespace drop; `taken` is
the greedy current line. -/
def wrapStepCore (width : Nat) (taken : List (List Char)) :
    List (List Char) → List (List Char) × List (List Char)
  | [] => (dropTrailWs taken, [])
  | c :: cs =>
    if width < c.length then
      (dropTrailWs (taken ++
          [(handleLongWord width ((taken.map List.length).sum) c).1]),
        (handleLongWord width ((taken.map List.length).sum) c).2 :: cs)
    else (dropTrailWs taken, c :: cs)

/-- One iteration of `_wrap_chunks` after the leading-whitespace drop:
greedy fill, `_handle_long_word` on an oversized next chunk, and the
trailing-whitespace drop.  Returns (the chunks of the current line, the
remaining chunks). -/
def wrapStep (width : Nat) (chunks1 : List (List Char)) :
    List (List Char) × List (List Char) :=
  wrapStepCore width (splitFits width 0 chunks1).1 (splitFits width 0 chunks1).2

/-- `TextWrapper._wrap_chunks` main loop (`drop_whitespace=True`,
no indents, `max_lines=None`).  `haveLines` tracks `lines` being
nonempty for the leading-whitespace drop. -/
def wrapLoop (width : Nat) : Nat → List (List Char) → Bool → List (List Char)
  | 0, _, _ => []
  | fuel + 1, chunks, haveLines =>
    match chunks with
    | [] => []
    | c0 :: cs0 =>
      let chunks1 := if isWsChunk c0 ∧ haveLines then cs0 else c0 :: cs0
      if (wrapStep width chunks1).1 ≠ [] then
        (wrapStep width chunks1).1.flatten ::
          wrapLoop width fuel (wrapStep width chunks1).2 true
      else
        wrapLoop width fuel (wrapStep width chunks1).2 haveLines

/-- `textwrap.fill(text, width)` with default options. -/
def pyFill (width : Nat) (text : List Char) : List Char :=
  let chunks := pyChunksOf (mungeWs text)
  joinNl (wrapLoop width ((chunks.map List.length).sum + 1) chunks false)

/-! ### rewrap (source lines 494-508) -/

/-- `rewrap(el, t, ind, pref)`: available width
`cols = max(term_columns - len(ind+pref), 5)`; pass through code nodes,
text that fits, and the opaque `\x02 ... \x03` replacement markers of
markdown.py; otherwise `textwrap.fill(textwrap.dedent(t).strip(), cols)`
(the dead code after the early `return ret` in the source is omitted). -/
def rewrap (tag : String) (t : String) (ind pref : String) (tc : Nat) : String :=
  let cols := max (tc - (ind ++ pref).length) 5
  if tag = "code" ∨ t.length ≤ cols then t
  else if pyStartsWith t "\x02" ∧ pyEndsWith t "\x03" then t
  else ⟨pyFill cols (pyStripL (pyDedentL t.toList))⟩

/-! Cross-checks of the textwrap embedding against CPython `textwrap`
outputs (hyphen rules, em-dashes, whitespace munging, long-word
breaking, dedent). -/

example : pyFill 10 "hello world foo".toList = "hello\nworld foo".toList := by decide
example : pyFill 6 "pre-built gadget".toList = "pre-\nbuilt\ngadget".toList := by decide
example : pyFill 3 "a-b-c".toList = "a-\nb-c".toList := by decide
example : pyFill 4 "ooo-x-yyy".toList = "ooo-\nx-\nyyy".toList := by decide
example : pyFill 3 "1-2 3-4-5".toList = "1-2\n3-\n4-5".toList := by decide
example : pyFill 4 "x  y   z".toList = "x  y\nz".toList := by decide
example : pyFill 5 "word, -- dash".toList = "word,\n--\ndash".toList := by decide
example : pyFill 7 "many-hyphens---in--text".toList
    = "many-\nhyphens\n---in--\ntext".toList := by decide
example : pyFill 6 "tab\there".toList = "tab\nhere".toList := by decide
example : pyFill 4 "A.B.--C".toList = "A.B.\n--C".toList := by decide
example : pyFill 3 "aa--".toList = "aa-\n-".toList := by decide
example : pyFill 3 "--aa".toList = "--a\na".toList := by decide
example : pyFill 4 "xy--ab-cd".toList = "xy--\nab-\ncd".toList := by decide
example : pyDedentL "  a\n   b\n\t c\n\n  ".toList = "  a\n   b\n\t c\n\n".toList := by
  decide
example : pyDedentL "  a\n  b".toList = "a\nb".toList := by decide

/-! ### Claim C6: the three pass-through branches of `rewrap` -/

/-- **C6.** `rewrap` returns its text argument unchanged whenever the
node tag is `'code'`, or the text length is at most the available width
(terminal columns minus the indent-plus-prefix length, floored at 5),
or the text is an opaque placeholder starting with `'\x02'` and ending
with `'\x03'`. -/
theorem rewrap_passthrough (tag t ind pref : String) (tc : Nat)
    (h : tag = "code" ∨ t.length ≤ max (tc - (ind ++ pref).length) 5 ∨
      (pyStartsWith t "\x02" ∧ pyEndsWith t "\x03")) :
    rewrap tag t ind pref tc = t := by
  rcases h with h | h | h
  · rw [rewrap, if_pos (Or.inl h)]
  · rw [rewrap, if_pos (Or.inr h)]
  · rw [rewrap]
    by_cases hfit : tag = "code" ∨ t.length ≤ max (tc - (ind ++ pref).length) 5
    · rw [if_pos hfit]
    · rw [if_neg hfit, if_pos h]

/-- Witness for C6: a long opaque placeholder passes through. -/
theorem rewrap_passthrough_witness :
    rewrap "p" "\x02aaaaaaaaaa\x03" "" "" 5 = "\x02aaaaaaaaaa\x03" :=
  rewrap_passthrough "p" "\x02aaaaaaaaaa\x03" "" "" 5
    (Or.inr (Or.inr (by decide)))

/-! ### Claim C3: the wrapping branch of `rewrap` -/

/-- Count of non-whitespace characters (printable content; the marker
bytes count like any other non-whitespace character, and no escape
sequences exist at this layer). -/
def countNonWS (l : List Char) : Nat := (l.filter (fun c => !isPyWS c)).length

/-- Maximal whitespace-separated words of a text. -/
def wordsOf : Nat → List Char → List (List Char)
  | 0, _ => []
  | fuel + 1, l =>
    match l with
    | [] => []
    | c :: _ =>
      if isPyWS c then wordsOf fuel (l.dropWhile isPyWS)
      else (l.takeWhile (fun c => !isPyWS c)) ::
        wordsOf fuel (l.dropWhile (fun c => !isPyWS c))

/-- **C3, counterexample.** A 12-character word at available width 5
(tag `'p'`, no indent, 5 terminal columns) is hard-broken by `rewrap`
into width-5 pieces: no output line contains the word intact, refuting
"never hard-breaking a word longer than that width". -/
theorem rewrap_hard_breaks_long_words :
    rewrap "p" "aaaaaaaaaaaa" "" "" 5 = "aaaaa\naaaaa\naa" ∧
    ¬ (∀ w ∈ wordsOf 13 "aaaaaaaaaaaa".toList,
        ∃ line ∈ splitNl ("aaaaa\naaaaa\naa".toList),
          containsL w line = true) := by
  constructor
  · decide
  · decide

lemma splitFits_append (width : Nat) :
    ∀ cur cs, (splitFits width cur cs).1 ++ (splitFits width cur cs).2 = cs := by
  intro cur cs
  induction cs generalizing cur with
  | nil => rfl
  | cons c rest ih =>
    simp only [splitFits]
    split
    · simp only [List.cons_append]
      rw [ih]
    · rfl

lemma splitFits_sum_le (width : Nat) :
    ∀ cur cs, cur ≤ width →
      cur + (((splitFits width cur cs).1.map List.length).sum) ≤ width := by
  intro cur cs
  induction cs generalizing cur with
  | nil => intro h; simpa using h
  | cons c rest ih =>
    intro h
    simp only [splitFits]
    split
    · rename_i hfit
      have := ih (cur + c.length) hfit
      simp only [List.map_cons, List.sum_cons]
      omega
    · simpa using h

lemma rfindAux_lt_length (c : Char) :
    ∀ l i, rfindAux c l = some i → i < l.length := by
  intro l
  induction l with
  | nil => intro i h; simp [rfindAux] at h
  | cons x xs ih =>
    intro i h
    cases hr : rfindAux c xs with
    | some j =>
      have hstep : rfindAux c (x :: xs) = some (j + 1) := by
        simp [rfindAux, hr]
      rw [hstep] at h
      injection h with h
      have := ih j hr
      simp only [List.length_cons]
      omega
    | none =>
      simp only [rfindAux, hr] at h
      by_cases hx : x = c
      · rw [if_pos hx] at h
        injection h with h
        subst h
        simp
      · rw [if_neg hx] at h
        cases h

lemma handleLongWord_append (w cl : Nat) (c : List Char) :
    (handleLongWord w cl c).1 ++ (handleLongWord w cl c).2 = c := by
  simp [handleLongWord]

lemma handleLongWord_piece_le (w cl : Nat) (c : List Char)
    (hw : 1 ≤ w) (hcl : cl ≤ w) :
    (handleLongWord w cl c).1.length ≤ w - cl := by
  have hnw : ¬ w < 1 := by omega
  simp only [handleLongWord, hnw, if_false]
  have hbound : ∀ endIdx, endIdx ≤ w - cl → (c.take endIdx).length ≤ w - cl := by
    intro endIdx h
    simp only [List.length_take]
    omega
  apply hbound
  split
  · cases hr : pyRfind '-' c (w - cl) with
    | some hyphen =>
      have hlt2 : hyphen < w - cl := by
        have h1 := rfindAux_lt_length '-' (c.take (w - cl)) hyphen hr
        have hmin : (c.take (w - cl)).length ≤ w - cl := by
          rw [List.length_take]
          exact min_le_left _ _
        omega
      simp only [hr]
      split
      · exact hlt2
      · exact le_rfl
    | none =>
      simp only [hr]
      exact le_rfl
  · exact le_rfl

lemma sum_map_dropLast_le (f : List Char → Nat) (l : List (List Char)) :
    ((l.dropLast).map f).sum ≤ (l.map f).sum := by
  induction l with
  | nil => simp
  | cons x xs ih =>
    cases xs with
    | nil => simp
    | cons y ys =>
      simp only [List.dropLast, List.map_cons, List.sum_cons]
      have := ih
      simp only [List.map_cons, List.sum_cons] at this
      omega

/-- The trailing-whitespace drop, as a decomposition: the kept chunks
followed by one whitespace-only dropped piece re-flatten to the
input. -/
lemma dropTrailWs_decomp (tk : List (List Char)) :
    ∃ dropped, isWsChunk dropped = true ∧
      (dropTrailWs tk).flatten ++ dropped = tk.flatten := by
  rw [dropTrailWs]
  cases htk : tk.getLast? with
  | none => exact ⟨[], rfl, by simp⟩
  | some lastC =>
    by_cases hws : isWsChunk lastC
    · refine ⟨lastC, hws, ?_⟩
      have hdecomp : tk.dropLast ++ [lastC] = tk :=
        List.dropLast_append_getLast? lastC htk
      show (if isWsChunk lastC = true then tk.dropLast else tk).flatten
          ++ lastC = tk.flatten
      rw [if_pos hws]
      calc tk.dropLast.flatten ++ lastC
      _ = (tk.dropLast ++ [lastC]).flatten := by
            rw [List.flatten_append]
            simp
      _ = tk.flatten := by rw [hdecomp]
    · refine ⟨[], rfl, ?_⟩
      simp [hws]

lemma dropTrailWs_sum_le (tk : List (List Char)) :
    ((dropTrailWs tk).map List.length).sum ≤ (tk.map List.length).sum := by
  rw [dropTrailWs]
  cases tk.getLast? with
  | none => exact le_rfl
  | some lastC =>
    show (List.map List.length
        (if isWsChunk lastC = true then tk.dropLast else tk)).sum
      ≤ (List.map List.length tk).sum
    by_cases hws : isWsChunk lastC
    · rw [if_pos hws]
      exact sum_map_dropLast_le List.length tk
    · rw [if_neg hws]

/-- Each line built by `wrapStepCore` fits in `width` (when
`width ≥ 1` and the greedy part already fits). -/
lemma wrapStepCore_line_le (w : Nat) (taken : List (List Char))
    (rest : List (List Char)) (hw : 1 ≤ w)
    (hsum : ((taken.map List.length).sum) ≤ w) :
    (((wrapStepCore w taken rest).1).flatten).length ≤ w := by
  rw [List.length_flatten]
  cases rest with
  | nil =>
    simp only [wrapStepCore]
    exact le_trans (dropTrailWs_sum_le _) hsum
  | cons c cs =>
    simp only [wrapStepCore]
    by_cases hlong : w < c.length
    · rw [if_pos hlong]
      refine le_trans (dropTrailWs_sum_le _) ?_
      simp only [List.map_append, List.sum_append, List.map_cons,
        List.sum_cons, List.map_nil, List.sum_nil]
      have hp := handleLongWord_piece_le w ((taken.map List.length).sum) c hw hsum
      omega
    · rw [if_neg hlong]
      exact le_trans (dropTrailWs_sum_le _) hsum

/-- `wrapStepCore` only reorders characters: the line, one dropped
whitespace-only piece, and the remaining chunks re-flatten to the
input. -/
lemma wrapStepCore_flatten (w : Nat) (taken rest : List (List Char)) :
    ∃ dropped, isWsChunk dropped = true ∧
      (wrapStepCore w taken rest).1.flatten ++ dropped
          ++ (wrapStepCore w taken rest).2.flatten
        = taken.flatten ++ rest.flatten := by
  cases rest with
  | nil =>
    simp only [wrapStepCore]
    rcases dropTrailWs_decomp taken with ⟨dropped, hws, hd⟩
    exact ⟨dropped, hws, by simp [hd]⟩
  | cons c cs =>
    simp only [wrapStepCore]
    by_cases hlong : w < c.length
    · rw [if_pos hlong]
      rcases dropTrailWs_decomp
        (taken ++ [(handleLongWord w ((taken.map List.length).sum) c).1])
        with ⟨dropped, hws, hd⟩
      refine ⟨dropped, hws, ?_⟩
      have hc := handleLongWord_append w ((taken.map List.length).sum) c
      rw [List.flatten_append, List.flatten_cons] at hd
      simp only [List.flatten_cons, List.flatten_nil, List.append_nil] at hd
      simp only [List.flatten_cons]
      calc (dropTrailWs (taken ++
            [(handleLongWord w ((taken.map List.length).sum) c).1])).flatten
            ++ dropped
            ++ ((handleLongWord w ((taken.map List.length).sum) c).2
              ++ cs.flatten)
      _ = (taken.flatten
            ++ (handleLongWord w ((taken.map List.length).sum) c).1)
            ++ ((handleLongWord w ((taken.map List.length).sum) c).2
              ++ cs.flatten) := by rw [hd]
      _ = taken.flatten
            ++ ((handleLongWord w ((taken.map List.length).sum) c).1
              ++ (handleLongWord w ((taken.map List.length).sum) c).2)
            ++ cs.flatten := by simp [List.append_assoc]
      _ = taken.flatten ++ (c ++ cs.flatten) := by
            rw [hc]
            simp [List.append_assoc]
    · rw [if_neg hlong]
      rcases dropTrailWs_decomp taken with ⟨dropped, hws, hd⟩
      refine ⟨dropped, hws, ?_⟩
      simp only [List.flatten_cons]
      rw [← hd]

lemma wrapStep_line_le (w : Nat) (hw : 1 ≤ w) (c1 : List (List Char)) :
    ((wrapStep w c1).1.flatten).length ≤ w := by
  have hsum := splitFits_sum_le w 0 c1 (by omega)
  rw [Nat.zero_add] at hsum
  exact wrapStepCore_line_le w _ _ hw hsum

lemma wrapStep_flatten (w : Nat) (c1 : List (List Char)) :
    ∃ dropped, isWsChunk dropped = true ∧
      (wrapStep w c1).1.flatten ++ dropped ++ (wrapStep w c1).2.flatten
        = c1.flatten := by
  rcases wrapStepCore_flatten w (splitFits w 0 c1).1 (splitFits w 0 c1).2
    with ⟨d, hws, hd⟩
  refine ⟨d, hws, ?_⟩
  rw [wrapStep, hd, ← List.flatten_append, splitFits_append]

lemma wrapLoop_line_le (w : Nat) (hw : 1 ≤ w) :
    ∀ fuel chunks hl line, line ∈ wrapLoop w fuel chunks hl →
      line.length ≤ w := by
  intro fuel
  induction fuel with
  | zero => intro chunks hl line h; simp [wrapLoop] at h
  | succ fuel ih =>
    intro chunks hl line h
    cases chunks with
    | nil => simp [wrapLoop] at h
    | cons c0 cs0 =>
      simp only [wrapLoop] at h
      split at h
      · split at h
        · rcases List.mem_cons.mp h with h | h
          · subst h
            exact wrapStep_line_le w hw _
          · exact ih _ _ _ h
        · exact ih _ _ _ h
      · split at h
        · rcases List.mem_cons.mp h with h | h
          · subst h
            exact wrapStep_line_le w hw _
          · exact ih _ _ _ h
        · exact ih _ _ _ h

/-! Character accounting for the wrap loop. -/

lemma countNonWS_append (a b : List Char) :
    countNonWS (a ++ b) = countNonWS a + countNonWS b := by
  simp [countNonWS, List.filter_append]

lemma countNonWS_of_isWsChunk (c : List Char) (h : isWsChunk c = true) :
    countNonWS c = 0 := by
  simp only [countNonWS, List.length_eq_zero, List.filter_eq_nil_iff]
  intro a ha
  have := List.all_eq_true.mp h a ha
  simp [this]

lemma wrapLoop_count_le (w : Nat) :
    ∀ fuel chunks hl,
      countNonWS ((wrapLoop w fuel chunks hl).flatten)
        ≤ countNonWS (chunks.flatten) := by
  intro fuel
  induction fuel with
  | zero => intro chunks hl; simp [wrapLoop, countNonWS]
  | succ fuel ih =>
    intro chunks hl
    cases chunks with
    | nil => simp [wrapLoop, countNonWS]
    | cons c0 cs0 =>
      simp only [wrapLoop]
      have hstep : ∀ c1 : List (List Char),
          countNonWS ((if (wrapStep w c1).1 ≠ [] then
              (wrapStep w c1).1.flatten ::
                wrapLoop w fuel (wrapStep w c1).2 true
            else wrapLoop w fuel (wrapStep w c1).2 hl).flatten)
          ≤ countNonWS c1.flatten := by
        intro c1
        rcases wrapStep_flatten w c1 with ⟨d, hws, hd⟩
        have hcnt : countNonWS ((wrapStep w c1).1.flatten)
            + countNonWS ((wrapStep w c1).2.flatten)
            = countNonWS c1.flatten := by
          rw [← hd]
          rw [countNonWS_append, countNonWS_append,
            countNonWS_of_isWsChunk d hws]
          omega
        split
        · simp only [List.flatten_cons, countNonWS_append]
          have h1 := ih (wrapStep w c1).2 true
          omega
        · have h1 := ih (wrapStep w c1).2 hl
          omega
      split
      · rename_i hdrop
        calc countNonWS _ ≤ countNonWS cs0.flatten := hstep cs0
        _ ≤ countNonWS ((c0 :: cs0).flatten) := by
              simp only [List.flatten_cons, countNonWS_append]
              omega
      · exact hstep (c0 :: cs0)

lemma wrapLoop_chars (w : Nat) :
    ∀ fuel chunks hl line ch, line ∈ wrapLoop w fuel chunks hl →
      ch ∈ line → ch ∈ chunks.flatten := by
  intro fuel
  induction fuel with
  | zero => intro chunks hl line ch h; simp [wrapLoop] at h
  | succ fuel ih =>
    intro chunks hl line ch h hch
    cases chunks with
    | nil => simp [wrapLoop] at h
    | cons c0 cs0 =>
      simp only [wrapLoop] at h
      have hstep : ∀ c1 : List (List Char),
          line ∈ (if (wrapStep w c1).1 ≠ [] then
              (wrapStep w c1).1.flatten ::
                wrapLoop w fuel (wrapStep w c1).2 true
            else wrapLoop w fuel (wrapStep w c1).2 hl) →
          ch ∈ c1.flatten := by
        intro c1 h1
        rcases wrapStep_flatten w c1 with ⟨d, hws, hd⟩
        rw [← hd]
        split at h1
        · rcases List.mem_cons.mp h1 with h2 | h2
          · subst h2
            simp only [List.mem_append]
            exact Or.inl (Or.inl hch)
          · have := ih _ _ _ ch h2 hch
            simp only [List.mem_append]
            exact Or.inr this
        · have := ih _ _ _ ch h1 hch
          simp only [List.mem_append]
          exact Or.inr this
      split at h
      · rename_i hdrop
        have := hstep cs0 h
        simp only [List.flatten_cons, List.mem_append]
        exact Or.inr this
      · exact hstep (c0 :: cs0) h

/-! Joining and splitting lines. -/

lemma countNonWS_cons_nl (l : List Char) :
    countNonWS ('\n' :: l) = countNonWS l := by
  simp [countNonWS, List.filter_cons, isPyWS]

lemma countNonWS_joinNl (ls : List (List Char)) :
    countNonWS (joinNl ls) = countNonWS ls.flatten := by
  match ls with
  | [] => rfl
  | [l] => simp [joinNl, countNonWS]
  | l :: l2 :: rest =>
    have ih := countNonWS_joinNl (l2 :: rest)
    simp only [joinNl, List.flatten_cons, countNonWS_append,
      countNonWS_cons_nl, ih, List.flatten_cons, countNonWS_append]

lemma joinNl_splitNl (l : List Char) : joinNl (splitNl l) = l := by
  induction l with
  | nil => rfl
  | cons c rest ih =>
    rcases hsp : splitNl rest with _ | ⟨h, t⟩
    · exact absurd hsp (splitNl_ne_nil rest)
    · simp only [splitNl, hsp]
      rw [hsp] at ih
      by_cases hc : c = '\n'
      · rw [if_pos hc]
        subst hc
        show '\n' :: joinNl (h :: t) = '\n' :: rest
        rw [ih]
      · rw [if_neg hc]
        cases t with
        | nil =>
          show c :: h = c :: rest
          have hh : h = rest := by simpa [joinNl] using ih
          rw [hh]
        | cons h2 t2 =>
          show (c :: h) ++ '\n' :: joinNl (h2 :: t2) = c :: rest
          have ih2 : h ++ '\n' :: joinNl (h2 :: t2) = rest := by
            simpa [joinNl] using ih
          rw [← ih2]
          simp

lemma splitNl_no_nl (l : List Char) (h : '\n' ∉ l) : splitNl l = [l] := by
  induction l with
  | nil => rfl
  | cons c rest ih =>
    have hc : c ≠ '\n' := fun hc => h (hc ▸ List.mem_cons_self c rest)
    have hr : '\n' ∉ rest := fun hr => h (List.mem_cons_of_mem c hr)
    simp only [splitNl, ih hr]
    rw [if_neg hc]

lemma splitNl_append_no_nl (a : List Char) (ha : '\n' ∉ a) :
    ∀ r h1 t1, splitNl r = h1 :: t1 → splitNl (a ++ r) = (a ++ h1) :: t1 := by
  induction a with
  | nil => intro r h1 t1 h; simpa using h
  | cons c arest ih =>
    intro r h1 t1 h
    have hc : c ≠ '\n' := fun hc => ha (hc ▸ List.mem_cons_self c arest)
    have ha' : '\n' ∉ arest := fun hr => ha (List.mem_cons_of_mem c hr)
    have hrec := ih ha' r h1 t1 h
    show splitNl (c :: (arest ++ r)) = (c :: (arest ++ h1)) :: t1
    simp only [splitNl, hrec]
    rw [if_neg hc]

lemma splitNl_joinNl (ls : List (List Char)) (hne : ls ≠ [])
    (h : ∀ l ∈ ls, '\n' ∉ l) : splitNl (joinNl ls) = ls := by
  match ls with
  | [l] =>
    simp only [joinNl]
    exact splitNl_no_nl l (h l (List.mem_singleton.mpr rfl))
  | l :: l2 :: rest =>
    have hl : '\n' ∉ l := h l (List.mem_cons_self _ _)
    have ih := splitNl_joinNl (l2 :: rest) (by simp)
      (fun x hx => h x (List.mem_cons_of_mem l hx))
    show splitNl (l ++ '\n' :: joinNl (l2 :: rest)) = l :: l2 :: rest
    have hsub : splitNl ('\n' :: joinNl (l2 :: rest))
        = [] :: splitNl (joinNl (l2 :: rest)) := by
      rcases hsp : splitNl (joinNl (l2 :: rest)) with _ | ⟨hh, tt⟩
      · exact absurd hsp (splitNl_ne_nil _)
      · simp [splitNl, hsp]
    rw [ih] at hsub
    have := splitNl_append_no_nl l hl ('\n' :: joinNl (l2 :: rest))
      [] (l2 :: rest) hsub
    simpa using this

/-! The chunker only reorders input characters. -/

lemma wordScan_append :
    ∀ fuel ctx acc r, (wordScan () fuel ctx acc r).1 ++ (wordScan () fuel ctx acc r).2
      = acc.reverse ++ r := by
  intro fuel
  induction fuel with
  | zero => intro ctx acc r; rfl
  | succ fuel ih =>
    intro ctx acc r
    cases r with
    | nil => simp [wordScan]
    | cons c r2 =>
      simp only [wordScan]
      split
      · simp
      · split
        · rfl
        · split
          · rfl
          · rw [ih ctx (c :: acc) r2]
            simp

lemma pyChunksAux_flatten_prefix :
    ∀ fuel hist r, ∃ s, (pyChunksAux fuel hist r).flatten ++ s = r := by
  intro fuel
  induction fuel with
  | zero => intro hist r; exact ⟨r, rfl⟩
  | succ fuel ih =>
    intro hist r
    cases r with
    | nil => exact ⟨[], rfl⟩
    | cons c rtail =>
      simp only [pyChunksAux]
      split
      · rcases ih ((((c :: rtail).takeWhile isPyWS).reverse) ++ hist)
          ((c :: rtail).dropWhile isPyWS) with ⟨s, hs⟩
        refine ⟨s, ?_⟩
        simp only [List.flatten_cons, List.append_assoc, hs]
        exact List.takeWhile_append_dropWhile _ _
      · split
        · rcases ih ((((c :: rtail).takeWhile (· = '-')).reverse) ++ hist)
            ((c :: rtail).dropWhile (· = '-')) with ⟨s, hs⟩
          refine ⟨s, ?_⟩
          simp only [List.flatten_cons, List.append_assoc, hs]
          exact List.takeWhile_append_dropWhile _ _
        · rcases ih (((wordScan () fuel hist [c] rtail).1).reverse ++ hist)
            ((wordScan () fuel hist [c] rtail).2) with ⟨s, hs⟩
          refine ⟨s, ?_⟩
          simp only [List.flatten_cons, List.append_assoc, hs]
          have := wordScan_append fuel hist [c] rtail
          simpa using this

lemma flatten_filter_ne_nil (l : List (List Char)) :
    (l.filter (· ≠ [])).flatten = l.flatten := by
  induction l with
  | nil => rfl
  | cons x xs ih =>
    by_cases hx : x = []
    · subst hx
      simpa [List.filter_cons] using ih
    · simp only [List.filter_cons, hx, List.flatten_cons]
      rw [if_pos (by simp [hx])]
      simp only [List.flatten_cons]
      congr 1

/-! Whitespace munging, stripping and dedenting preserve or reduce the
non-whitespace character count. -/

lemma countNonWS_replicate_space (n : Nat) :
    countNonWS (List.replicate n ' ') = 0 := by
  apply countNonWS_of_isWsChunk
  simp only [isWsChunk, List.all_eq_true]
  intro a ha
  rw [List.eq_of_mem_replicate ha]
  decide

lemma countNonWS_cons (c : Char) (l : List Char) :
    countNonWS (c :: l) = (if isPyWS c then 0 else 1) + countNonWS l := by
  simp only [countNonWS, List.filter_cons]
  by_cases hc : isPyWS c
  · simp [hc]
  · simp [hc]
    all_goals omega

lemma countNonWS_expandTabs : ∀ (colPos : Nat) (l : List Char),
    countNonWS (expandTabs colPos l) = countNonWS l := by
  intro colPos l
  induction l generalizing colPos with
  | nil => rfl
  | cons c rest ih =>
    simp only [expandTabs]
    by_cases ht : c = '\t'
    · rw [if_pos ht]
      rw [countNonWS_append, countNonWS_replicate_space, ih]
      subst ht
      rw [countNonWS_cons]
      simp [isPyWS]
    · rw [if_neg ht]
      by_cases hn : c = '\n' ∨ c = '\r'
      · rw [if_pos hn, countNonWS_cons, countNonWS_cons, ih]
      · rw [if_neg hn, countNonWS_cons, countNonWS_cons, ih]

lemma countNonWS_mungeWs (t : List Char) :
    countNonWS (mungeWs t) = countNonWS t := by
  rw [mungeWs]
  have hmap : ∀ l : List Char,
      countNonWS (l.map (fun c => if isPyWS c then ' ' else c)) = countNonWS l := by
    intro l
    induction l with
    | nil => rfl
    | cons c rest ih =>
      simp only [List.map_cons]
      by_cases hc : isPyWS c
      · rw [if_pos hc, countNonWS_cons, countNonWS_cons, ih,
          if_pos hc, if_pos (show isPyWS ' ' = true by decide)]
      · rw [if_neg hc, countNonWS_cons, countNonWS_cons, ih]
  rw [hmap, countNonWS_expandTabs]

lemma countNonWS_sublist {l1 l2 : List Char} (h : l1.Sublist l2) :
    countNonWS l1 ≤ countNonWS l2 :=
  List.Sublist.length_le (List.Sublist.filter _ h)

lemma countNonWS_reverse (l : List Char) :
    countNonWS l.reverse = countNonWS l := by
  simp [countNonWS, List.filter_reverse]

lemma countNonWS_pyStripL_le (l : List Char) :
    countNonWS (pyStripL l) ≤ countNonWS l := by
  rw [pyStripL, countNonWS_reverse]
  calc countNonWS (((l.dropWhile isPyWS).reverse).dropWhile isPyWS)
  _ ≤ countNonWS ((l.dropWhile isPyWS).reverse) :=
      countNonWS_sublist (List.dropWhile_sublist _)
  _ = countNonWS (l.dropWhile isPyWS) := countNonWS_reverse _
  _ ≤ countNonWS l := countNonWS_sublist (List.dropWhile_sublist _)

lemma countNonWS_flatten_map_le (f : List Char → List Char)
    (hf : ∀ l, countNonWS (f l) ≤ countNonWS l) (ls : List (List Char)) :
    countNonWS ((ls.map f).flatten) ≤ countNonWS ls.flatten := by
  induction ls with
  | nil => exact le_rfl
  | cons x xs ih =>
    simp only [List.map_cons, List.flatten_cons, countNonWS_append]
    have := hf x
    omega

lemma countNonWS_pyDedentL_le (t : List Char) :
    countNonWS (pyDedentL t) ≤ countNonWS t := by
  have htot : countNonWS ((splitNl t).flatten) = countNonWS t := by
    conv_rhs => rw [← joinNl_splitNl t]
    rw [countNonWS_joinNl]
  have hf1 : ∀ l : List Char,
      countNonWS (if l ≠ [] ∧ l.all isSpaceTab then [] else l) ≤ countNonWS l := by
    intro l
    split
    · simp [countNonWS]
    · exact le_rfl
  simp only [pyDedentL]
  rw [countNonWS_joinNl]
  split
  · exact le_trans (countNonWS_flatten_map_le _ hf1 _) (le_of_eq htot)
  · refine le_trans (countNonWS_flatten_map_le _ ?_ _)
      (le_trans (countNonWS_flatten_map_le _ hf1 _) (le_of_eq htot))
    intro l
    split
    · exact countNonWS_sublist (List.drop_sublist _ _)
    · exact le_rfl

/-! No newline survives whitespace munging, so wrapped lines carry no
newline and joining/splitting them is lossless. -/

lemma no_nl_mungeWs (t : List Char) : '\n' ∉ mungeWs t := by
  intro h
  rcases List.mem_map.mp h with ⟨a, _, ha⟩
  by_cases hws : isPyWS a
  · rw [if_pos hws] at ha
    cases ha
  · rw [if_neg hws] at ha
    subst ha
    exact hws (by decide)

lemma mem_pySplitlines_toList (s line : String)
    (h : line ∈ pySplitlines s) : line.toList ∈ splitNl s.toList := by
  unfold pySplitlines at h
  by_cases hs : s = ""
  · rw [if_pos hs] at h
    simp at h
  · rw [if_neg hs] at h
    have h2 : line ∈ (splitNl s.toList).map (fun l => (⟨l⟩ : String)) := by
      split at h
      · exact List.mem_of_mem_dropLast h
      · exact h
    rcases List.mem_map.mp h2 with ⟨part, hp, he⟩
    rw [← he]
    exact hp

/-- **C3, amended.** For every non-code text run that is not an opaque
placeholder and is longer than the available width (terminal columns
minus the indent-plus-prefix length, floored at 5), `rewrap` dedents the
text and greedily wraps it on whitespace to that width, hard-breaking
words longer than the width into width-sized pieces, so that every
output line fits in the available width; and it never increases the
count of non-whitespace printable characters. -/
theorem rewrap_wrap_properties (tag t ind pref : String) (tc : Nat)
    (htag : tag ≠ "code")
    (hlong : max (tc - (ind ++ pref).length) 5 < t.length)
    (hph : ¬(pyStartsWith t "\x02" = true ∧ pyEndsWith t "\x03" = true)) :
    (∀ line ∈ pySplitlines (rewrap tag t ind pref tc),
        line.length ≤ max (tc - (ind ++ pref).length) 5) ∧
    countNonWS (rewrap tag t ind pref tc).toList ≤ countNonWS t.toList := by
  have hres : rewrap tag t ind pref tc
      = ⟨pyFill (max (tc - (ind ++ pref).length) 5)
          (pyStripL (pyDedentL t.toList))⟩ := by
    rw [rewrap, if_neg, if_neg hph]
    rintro (h | h)
    · exact htag h
    · omega
  set cols := max (tc - (ind ++ pref).length) 5 with hcols
  have hcols5 : 5 ≤ cols := le_max_right _ _
  set txt := pyStripL (pyDedentL t.toList) with htxt
  set chunks := pyChunksOf (mungeWs txt) with hchunks
  set lines := wrapLoop cols ((chunks.map List.length).sum + 1) chunks false
    with hlines
  have hfill : pyFill cols txt = joinNl lines := rfl
  have hchars : ∀ line ∈ lines, ∀ ch ∈ line, ch ∈ mungeWs txt := by
    intro line hline ch hch
    have h1 := wrapLoop_chars cols _ chunks false line ch hline hch
    rw [hchunks, pyChunksOf, flatten_filter_ne_nil] at h1
    rcases pyChunksAux_flatten_prefix ((mungeWs txt).length + 1) [] (mungeWs txt)
      with ⟨s, hs⟩
    rw [← hs]
    exact List.mem_append.mpr (Or.inl h1)
  have hnl : ∀ line ∈ lines, '\n' ∉ line := by
    intro line hline hmem
    exact no_nl_mungeWs txt (hchars line hline '\n' hmem)
  constructor
  · intro line hline
    rw [hres] at hline
    have hmem := mem_pySplitlines_toList _ _ hline
    have htl : (⟨pyFill cols txt⟩ : String).toList = joinNl lines := hfill
    rw [htl] at hmem
    by_cases hl : lines = []
    · rw [hl] at hmem
      simp only [joinNl, splitNl, List.mem_singleton] at hmem
      have : line.toList = [] := hmem
      have : line.toList.length = 0 := by rw [this]; rfl
      show line.toList.length ≤ cols
      omega
    · rw [splitNl_joinNl lines hl (hnl)] at hmem
      exact wrapLoop_line_le cols (by omega) _ chunks false _ hmem
  · rw [hres]
    show countNonWS (pyFill cols txt) ≤ countNonWS t.toList
    rw [hfill, countNonWS_joinNl]
    calc countNonWS lines.flatten
    _ ≤ countNonWS chunks.flatten := wrapLoop_count_le cols _ chunks false
    _ ≤ countNonWS (mungeWs txt) := by
        rw [hchunks, pyChunksOf, flatten_filter_ne_nil]
        rcases pyChunksAux_flatten_prefix ((mungeWs txt).length + 1) []
          (mungeWs txt) with ⟨s, hs⟩
        have h2 : countNonWS
              ((pyChunksAux ((mungeWs txt).length + 1) [] (mungeWs txt)).flatten)
            + countNonWS s = countNonWS (mungeWs txt) := by
          rw [← countNonWS_append, hs]
        omega
    _ = countNonWS txt := countNonWS_mungeWs txt
    _ ≤ countNonWS (pyDedentL t.toList) := countNonWS_pyStripL_le _
    _ ≤ countNonWS t.toList := countNonWS_pyDedentL_le _

/-! ### Admonition handling (source lines 170-181, 620-638) and claim C7 -/

/-- The `admons` table literal.  The Python source lists `'hint'` three
times; in a dict literal the last assignment wins, leaving one entry.
Python 2 dict ordering is hash-based; it is abstracted here as the
insertion order, which fixes which entry `admons.values()[0]` denotes
(the claim only requires *a* default color). -/
def defaultAdmons : List (String × String) :=
  [("note", "H3"), ("warning", "R"), ("attention", "H1"), ("hint", "H4"),
   ("summary", "H1"), ("question", "H5"), ("danger", "R"), ("dev", "H5"),
   ("caution", "H2")]

/-- Chars after the first occurrence of `pat` (nonempty) in the list:
`s.split(pat, 1)[1]`.  `none` when `pat` does not occur (Python raises
`IndexError` on the `[1]`). -/
def splitAfterL (pat : List Char) : List Char → Option (List Char)
  | [] => none
  | c :: rest =>
    if pat.isPrefixOf (c :: rest) then some ((c :: rest).drop pat.length)
    else splitAfterL pat rest

/-- `t.split(k, 1)[1]`; `none` on the `ValueError` for an empty
separator or the `IndexError` when `k` does not occur. -/
def pySplit1After (s pat : String) : Option String :=
  if pat = "" then none
  else (splitAfterL pat.toList s.toList).map (fun l => (⟨l⟩ : String))

/-- The admonition branch of the Block Formatter text handler: given the
current `admons` table and the stripped node text `t`, returns
`(admonition keyword, first-line prefix, remaining text, updated table)`
(empty keyword and prefix when `t` is no admonition); `none` where the
Python code raises. -/
def admon_handle (admons : List (String × String)) (t : String) :
    Option (String × String × String × List (String × String)) :=
  if ¬ pyStartsWith t "!!! " then some ("", "", t, admons)
  else
    match admons.find? (fun p => pyStartsWith (⟨t.toList.drop 4⟩ : String) p.1) with
    | some (k, _) =>
      (pySplit1After t k).map (fun t2 => (k, "┃ " ++ pyCapitalize k, t2, admons))
    | none =>
      match admons with
      | [] => none
      | (_, v0) :: _ =>
        (pySplit1After t (⟨(t.toList.drop 4).takeWhile (· ≠ ' ')⟩ : String)).map
          (fun t2 =>
            ((⟨(t.toList.drop 4).takeWhile (· ≠ ' ')⟩ : String),
              "┃ " ++ pyCapitalize (⟨(t.toList.drop 4).takeWhile (· ≠ ' ')⟩ : String),
              t2,
              admons ++ [((⟨(t.toList.drop 4).takeWhile (· ≠ ' ')⟩ : String), v0)]))

/-- **C7, counterexample.** The keyword `"notebook"` is not present in
the admonition table, yet the node `"!!! notebook x"` is matched by the
`startswith` loop against the table entry `"note"`: it is rendered as a
`Note` admonition with text `"book x"` and nothing is registered,
refuting "the unknown keyword is silently registered in the table". -/
theorem admon_unknown_keyword_not_registered :
    (pyStartsWith "!!! notebook x" "!!! " = true) ∧
    defaultAdmons.find? (fun p => p.1 = "notebook") = none ∧
    admon_handle defaultAdmons "!!! notebook x"
      = some ("note", "┃ Note", "book x", defaultAdmons) := by
  refine ⟨by decide, by decide, ?_⟩
  decide

lemma containsL_of_isPrefixOf (pat l : List Char)
    (h : pat.isPrefixOf l = true) : containsL pat l = true := by
  cases l with
  | nil =>
    have : pat = [] := by
      cases pat with
      | nil => rfl
      | cons p ps => simp [List.isPrefixOf] at h
    simp [containsL, this]
  | cons c rest => simp [containsL, h]

lemma containsL_append_of_isPrefixOf (pat a b : List Char)
    (h : pat.isPrefixOf b = true) : containsL pat (a ++ b) = true := by
  induction a with
  | nil => simpa using containsL_of_isPrefixOf pat b h
  | cons c arest ih =>
    simp only [List.cons_append, containsL, Bool.or_eq_true]
    exact Or.inr ih

lemma splitAfterL_isSome_of_contains (pat l : List Char)
    (h : containsL pat l = true) (hne : pat ≠ []) :
    (splitAfterL pat l).isSome = true := by
  induction l with
  | nil =>
    simp only [containsL, decide_eq_true_eq] at h
    exact absurd h hne
  | cons c rest ih =>
    simp only [containsL, Bool.or_eq_true] at h
    simp only [splitAfterL]
    by_cases hp : pat.isPrefixOf (c :: rest) = true
    · rw [if_pos hp]
      rfl
    · rw [if_neg hp]
      rcases h with h | h
      · exact absurd h hp
      · exact ih h

/-- **C7, amended.** For every table state and every stripped text
starting with `"!!! "` followed by a nonempty keyword such that *no
table keyword is a prefix of the rest of the text*, rendering does not
fail: the keyword is silently registered in the table with a default
color (the table's first value) and the node is rendered as an
admonition (prefix `"┃ " + keyword.capitalize()`). -/
theorem admon_unknown_registers (admons : List (String × String)) (t : String)
    (hstart : pyStartsWith t "!!! " = true)
    (hnone : ∀ p ∈ admons,
      pyStartsWith (⟨t.toList.drop 4⟩ : String) p.1 = false)
    (hk : (t.toList.drop 4).takeWhile (· ≠ ' ') ≠ [])
    (hne : admons ≠ []) :
    ∃ t2, admon_handle admons t
      = some ((⟨(t.toList.drop 4).takeWhile (· ≠ ' ')⟩ : String),
          "┃ " ++ pyCapitalize (⟨(t.toList.drop 4).takeWhile (· ≠ ' ')⟩ : String),
          t2,
          admons ++ [((⟨(t.toList.drop 4).takeWhile (· ≠ ' ')⟩ : String),
            (admons.headD ("", "")).2)]) := by
  have hfind : admons.find?
      (fun p => pyStartsWith (⟨t.toList.drop 4⟩ : String) p.1) = none := by
    rw [List.find?_eq_none]
    intro p hp hcontra
    have h1 : pyStartsWith (⟨t.toList.drop 4⟩ : String) p.1 = true := hcontra
    rw [hnone p hp] at h1
    cases h1
  have hsplit : t.toList = "!!! ".toList ++ t.toList.drop 4 := by
    have hpre := List.isPrefixOf_iff_prefix.mp hstart
    rcases hpre with ⟨rest, hrest⟩
    rw [← hrest]
    simp
  have hpref : ((t.toList.drop 4).takeWhile (· ≠ ' ')).isPrefixOf
      (t.toList.drop 4) = true := by
    rw [List.isPrefixOf_iff_prefix]
    exact List.takeWhile_prefix _
  have hcont : containsL ((t.toList.drop 4).takeWhile (· ≠ ' ')) t.toList = true := by
    rw [hsplit]
    exact containsL_append_of_isPrefixOf _ _ _ hpref
  have hsome := splitAfterL_isSome_of_contains _ _ hcont hk
  cases admons with
  | nil => exact absurd rfl hne
  | cons a arest =>
    rcases a with ⟨k0, v0⟩
    have hkne : (⟨(t.toList.drop 4).takeWhile (· ≠ ' ')⟩ : String) ≠ "" := by
      intro hcontra
      apply hk
      have := congrArg String.toList hcontra
      simpa using this
    simp only [admon_handle, if_neg (show ¬¬(pyStartsWith t "!!! " = true) by
      simp [hstart]), hfind, pySplit1After, if_neg hkne]
    rw [show ((⟨(t.toList.drop 4).takeWhile (· ≠ ' ')⟩ : String)).toList
        = (t.toList.drop 4).takeWhile (· ≠ ' ') from rfl]
    cases hs : splitAfterL ((t.toList.drop 4).takeWhile (· ≠ ' ')) t.toList with
    | none =>
      rw [hs] at hsome
      simp at hsome
    | some t2 =>
      refine ⟨⟨t2⟩, ?_⟩
      simp [Option.map, List.headD]

/-- Witness for the amended C7: `"!!! foo bar"` on the default table. -/
theorem admon_unknown_registers_witness :
    ∃ t2, admon_handle defaultAdmons "!!! foo bar"
      = some ((⟨("!!! foo bar".toList.drop 4).takeWhile (· ≠ ' ')⟩ : String),
          "┃ " ++ pyCapitalize
            (⟨("!!! foo bar".toList.drop 4).takeWhile (· ≠ ' ')⟩ : String),
          t2,
          defaultAdmons ++ [((⟨("!!! foo bar".toList.drop 4).takeWhile (· ≠ ' ')⟩ : String),
            (defaultAdmons.headD ("", "")).2)]) :=
  admon_unknown_registers defaultAdmons "!!! foo bar"
    (by decide) (by decide) (by decide) (by decide)

/-- Witness for the amended C3 at `"hello world foo"`, width 10. -/
theorem rewrap_wrap_properties_witness :
    (∀ line ∈ pySplitlines (rewrap "p" "hello world foo" "" "" 10),
        line.length ≤ max (10 - (("" ++ "" : String)).length) 5) ∧
    countNonWS (rewrap "p" "hello world foo" "" "" 10).toList
      ≤ countNonWS "hello world foo".toList :=
  rewrap_wrap_properties "p" "hello world foo" "" "" 10
    (by decide) (by decide) (by decide)

/-! ### Marker Codec (source lines 609-616) and claim C9 -/

/-- Python 2 `HTMLParser().unescape` restricted to the five basic named
entities (the general numeric and named character references extend the
table but behave identically on entity-free text, which is the case the
codec claim exercises: entities never contain marker bytes). -/
def htmlUnescapeFuel : Nat → List Char → List Char
  | 0, l => l
  | _ + 1, [] => []
  | n + 1, c :: rest =>
    if c = '&' then
      if "amp;".toList.isPrefixOf rest then '&' :: htmlUnescapeFuel n (rest.drop 4)
      else if "lt;".toList.isPrefixOf rest then '<' :: htmlUnescapeFuel n (rest.drop 3)
      else if "gt;".toList.isPrefixOf rest then '>' :: htmlUnescapeFuel n (rest.drop 3)
      else if "quot;".toList.isPrefixOf rest then
        '"' :: htmlUnescapeFuel n (rest.drop 5)
      else if "apos;".toList.isPrefixOf rest then
        '\'' :: htmlUnescapeFuel n (rest.drop 5)
      else c :: htmlUnescapeFuel n rest
    else c :: htmlUnescapeFuel n rest

def htmlUnescapeL (l : List Char) : List Char :=
  htmlUnescapeFuel l.length l

/-- The inline-tag encoding of the Block Formatter (source lines
609-616): the six tag-to-marker replacements in source order
(`code`, `strong`, `em`; start tag then end tag), then HTML
unescaping. -/
def encodeTags (t : List Char) : List Char :=
  htmlUnescapeL
    (replaceL "</em>".toList [emph_end]
      (replaceL "<em>".toList [emph_start]
        (replaceL "</strong>".toList [stng_end]
          (replaceL "<strong>".toList [stng_start]
            (replaceL "</code>".toList [code_end]
              (replaceL "<code>".toList [code_start] t))))))

/-- Modelled from the spec: the decode direction of the Marker Codec
("Marker Codec round-trips encode/decode exactly").  The source has no
standalone decoder — `col` (source lines 389-408) consumes the markers
into color escapes — so the inverse marker-to-tag replacement is
modelled here from the spec's wording, undoing the six replacements in
reverse order. -/
def decodeTags (t : List Char) : List Char :=
  replaceL [code_start] "<code>".toList
    (replaceL [code_end] "</code>".toList
      (replaceL [stng_start] "<strong>".toList
        (replaceL [stng_end] "</strong>".toList
          (replaceL [emph_start] "<em>".toList
            (replaceL [emph_end] "</em>".toList t)))))

/-- The inline-markup trees of the claim: arbitrary nesting of the
three inline tags over plain text. -/
inductive InlineTree : Type where
  | text : List Char → InlineTree
  | seq : InlineTree → InlineTree → InlineTree
  | em : InlineTree → InlineTree
  | strong : InlineTree → InlineTree
  | codeTag : InlineTree → InlineTree
deriving Repr

/-- Serialized (tagged) form of a tree, as the formatter's
`is_text_node` extraction yields it. -/
def serialize : InlineTree → List Char
  | .text s => s
  | .seq a b => serialize a ++ serialize b
  | .em a => "<em>".toList ++ serialize a ++ "</em>".toList
  | .strong a => "<strong>".toList ++ serialize a ++ "</strong>".toList
  | .codeTag a => "<code>".toList ++ serialize a ++ "</code>".toList

/-- Leaf texts avoid the six marker bytes (they could alias encoded
markers) and `'&'` (they would be rewritten by entity unescaping). -/
def goodChar (c : Char) : Bool :=
  !(c = code_start || c = code_end || c = stng_start || c = stng_end ||
    c = emph_start || c = emph_end || c = '&')

def leavesGood : InlineTree → Bool
  | .text s => s.all goodChar
  | .seq a b => leavesGood a && leavesGood b
  | .em a => leavesGood a
  | .strong a => leavesGood a
  | .codeTag a => leavesGood a

/-! Equations and algebra of the single-pattern replacement. -/

lemma replaceL_cons_match (pat rep : List Char) (c : Char) (rest : List Char)
    (h : pat ≠ [] ∧ pat.isPrefixOf (c :: rest) = true) :
    replaceL pat rep (c :: rest)
      = rep ++ replaceL pat rep (rest.drop (pat.length - 1)) := by
  show replaceFuel pat rep (rest.length + 1) (c :: rest) = _
  rw [show replaceFuel pat rep (rest.length + 1) (c :: rest)
      = if pat ≠ [] ∧ pat.isPrefixOf (c :: rest) = true then
          rep ++ replaceFuel pat rep rest.length (rest.drop (pat.length - 1))
        else c :: replaceFuel pat rep rest.length rest from rfl]
  rw [if_pos h]
  congr 1
  exact replaceFuel_congr pat rep rest.length
    (rest.drop (pat.length - 1)).length (rest.drop (pat.length - 1))
    (by simp only [List.length_drop]; omega) le_rfl

lemma replaceL_cons_nomatch (pat rep : List Char) (c : Char) (rest : List Char)
    (h : ¬(pat ≠ [] ∧ pat.isPrefixOf (c :: rest) = true)) :
    replaceL pat rep (c :: rest) = c :: replaceL pat rep rest := by
  show replaceFuel pat rep (rest.length + 1) (c :: rest) = _
  rw [show replaceFuel pat rep (rest.length + 1) (c :: rest)
      = if pat ≠ [] ∧ pat.isPrefixOf (c :: rest) = true then
          rep ++ replaceFuel pat rep rest.length (rest.drop (pat.length - 1))
        else c :: replaceFuel pat rep rest.length rest from rfl]
  rw [if_neg h]
  rfl

lemma not_mem_replaceL (pat rep : List Char) (m : Char) :
    ∀ l, m ∉ l → m ∉ rep → m ∉ replaceL pat rep l := by
  have H : ∀ n l, List.length l ≤ n → m ∉ l → m ∉ rep →
      m ∉ replaceL pat rep l := by
    intro n
    induction n with
    | zero =>
      intro l hn hl _
      have : l = [] := List.length_eq_zero.mp (Nat.le_zero.mp hn)
      subst this
      simpa [replaceL, replaceFuel] using hl
    | succ n ih =>
      intro l hn hl hr
      match l with
      | [] => simpa [replaceL, replaceFuel] using hl
      | c :: rest =>
        simp only [List.length_cons] at hn
        have hlr : m ∉ rest := fun h => hl (List.mem_cons_of_mem c h)
        have hlc : m ≠ c := fun h => hl (h ▸ List.mem_cons_self c rest)
        by_cases hp : pat ≠ [] ∧ pat.isPrefixOf (c :: rest) = true
        · rw [replaceL_cons_match pat rep c rest hp]
          intro hmem
          rcases List.mem_append.mp hmem with h | h
          · exact hr h
          · have hdle : (rest.drop (pat.length - 1)).length ≤ n := by
              simp only [List.length_drop]
              omega
            have hdm : m ∉ rest.drop (pat.length - 1) := fun h2 =>
              hlr ((List.drop_sublist _ _).subset h2)
            exact ih _ hdle hdm hr h
        · rw [replaceL_cons_nomatch pat rep c rest hp]
          intro hmem
          rcases List.mem_cons.mp hmem with h | h
          · exact hlc h
          · exact ih rest (by omega) hlr hr h
  intro l
  exact H l.length l le_rfl

/-- Replacing a nonempty pattern by a fresh single marker and replacing
the marker back restores the original. -/
lemma replace_roundtrip (pat : List Char) (m : Char) (hpne : pat ≠ [])
    (hmp : m ∉ pat) :
    ∀ s, m ∉ s → replaceL [m] pat (replaceL pat [m] s) = s := by
  have H : ∀ n s, List.length s ≤ n → m ∉ s →
      replaceL [m] pat (replaceL pat [m] s) = s := by
    intro n
    induction n with
    | zero =>
      intro s hn _
      have : s = [] := List.length_eq_zero.mp (Nat.le_zero.mp hn)
      subst this
      rfl
    | succ n ih =>
      intro s hn hs
      match s with
      | [] => rfl
      | c :: rest =>
        simp only [List.length_cons] at hn
        have hsr : m ∉ rest := fun h => hs (List.mem_cons_of_mem c h)
        have hsc : m ≠ c := fun h => hs (h ▸ List.mem_cons_self c rest)
        by_cases hp : pat.isPrefixOf (c :: rest) = true
        · rw [replaceL_cons_match pat [m] c rest ⟨hpne, hp⟩]
          show replaceL [m] pat (m :: replaceL pat [m] (rest.drop (pat.length - 1)))
            = c :: rest
          rw [replaceL_cons_match [m] pat m _ ⟨by simp, by simp [List.isPrefixOf]⟩]
          have hzero : ([m] : List Char).length - 1 = 0 := rfl
          rw [hzero, List.drop_zero]
          have hdle : (rest.drop (pat.length - 1)).length ≤ n := by
            simp only [List.length_drop]
            omega
          have hdm : m ∉ rest.drop (pat.length - 1) := fun h2 =>
            hsr ((List.drop_sublist _ _).subset h2)
          rw [ih _ hdle hdm]
          rcases List.isPrefixOf_iff_prefix.mp hp with ⟨tl, htl⟩
          have hdrop : (c :: rest).drop pat.length = tl := by
            rw [← htl]
            exact List.drop_left pat tl
          rcases pat with _ | ⟨p, ps⟩
          · exact absurd rfl hpne
          · have : rest.drop ((p :: ps).length - 1) = tl := by
              simpa using hdrop
            rw [this, htl]
        · have hcond : ¬(pat ≠ [] ∧ pat.isPrefixOf (c :: rest) = true) :=
            fun ⟨_, h2⟩ => hp h2
          rw [replaceL_cons_nomatch pat [m] c rest hcond]
          have hmc : ¬(([m] : List Char) ≠ [] ∧
              ([m] : List Char).isPrefixOf (c :: replaceL pat [m] rest) = true) := by
            rintro ⟨_, h2⟩
            simp only [List.isPrefixOf, Bool.and_eq_true, beq_iff_eq] at h2
            exact hsc h2.1
          rw [replaceL_cons_nomatch [m] pat c _ hmc]
          rw [ih rest (by omega) hsr]
  intro s hs
  exact H s.length s le_rfl hs

lemma htmlUnescapeFuel_id : ∀ n l, '&' ∉ l → htmlUnescapeFuel n l = l := by
  intro n
  induction n with
  | zero => intro l _; rfl
  | succ n ih =>
    intro l h
    match l with
    | [] => rfl
    | c :: rest =>
      have hc : c ≠ '&' := fun hc => h (hc ▸ List.mem_cons_self c rest)
      have hr : '&' ∉ rest := fun hr => h (List.mem_cons_of_mem c hr)
      simp only [htmlUnescapeFuel, if_neg hc]
      rw [ih rest hr]

lemma htmlUnescapeL_id (l : List Char) (h : '&' ∉ l) : htmlUnescapeL l = l :=
  htmlUnescapeFuel_id l.length l h

lemma serialize_all_good (t : InlineTree) (h : leavesGood t = true) :
    (serialize t).all goodChar = true := by
  induction t with
  | text s => exact h
  | seq a b iha ihb =>
    simp only [leavesGood, Bool.and_eq_true] at h
    simp only [serialize, List.all_append, Bool.and_eq_true]
    exact ⟨iha h.1, ihb h.2⟩
  | em a iha =>
    simp only [leavesGood] at h
    simp only [serialize, List.all_append, Bool.and_eq_true]
    exact ⟨⟨by decide, iha h⟩, by decide⟩
  | strong a iha =>
    simp only [leavesGood] at h
    simp only [serialize, List.all_append, Bool.and_eq_true]
    exact ⟨⟨by decide, iha h⟩, by decide⟩
  | codeTag a iha =>
    simp only [leavesGood] at h
    simp only [serialize, List.all_append, Bool.and_eq_true]
    exact ⟨⟨by decide, iha h⟩, by decide⟩

lemma not_mem_of_all_good (l : List Char) (hall : l.all goodChar = true)
    (m : Char) (hm : goodChar m = false) : m ∉ l := by
  intro hmem
  have := List.all_eq_true.mp hall m hmem
  rw [hm] at this
  cases this

/-- The codec round-trip on any string free of marker bytes and
`'&'`. -/
lemma codec_roundtrip_string (s : List Char)
    (h7 : code_start ∉ s) (h8 : code_end ∉ s) (h16 : stng_start ∉ s)
    (h10 : stng_end ∉ s) (h11 : emph_start ∉ s) (h12 : emph_end ∉ s)
    (hamp : '&' ∉ s) :
    decodeTags (encodeTags s) = s := by
  have prop : ∀ (pat : List Char) (mk m : Char), m ∉ [mk] → ∀ l, m ∉ l →
      m ∉ replaceL pat [mk] l :=
    fun pat mk m hr l hl => not_mem_replaceL pat [mk] m l hl hr
  simp only [encodeTags, decodeTags]
  set x1 := replaceL "<code>".toList [code_start] s with hx1
  set x2 := replaceL "</code>".toList [code_end] x1 with hx2
  set x3 := replaceL "<strong>".toList [stng_start] x2 with hx3
  set x4 := replaceL "</strong>".toList [stng_end] x3 with hx4
  set x5 := replaceL "<em>".toList [emph_start] x4 with hx5
  set x6 := replaceL "</em>".toList [emph_end] x5 with hx6
  have a8 : code_end ∉ x1 := by
    rw [hx1]
    exact prop _ _ _ (by decide) _ h8
  have a16 : stng_start ∉ x2 := by
    rw [hx2, hx1]
    exact prop _ _ _ (by decide) _ (prop _ _ _ (by decide) _ h16)
  have a10 : stng_end ∉ x3 := by
    rw [hx3, hx2, hx1]
    exact prop _ _ _ (by decide) _ (prop _ _ _ (by decide) _
      (prop _ _ _ (by decide) _ h10))
  have a11 : emph_start ∉ x4 := by
    rw [hx4, hx3, hx2, hx1]
    exact prop _ _ _ (by decide) _ (prop _ _ _ (by decide) _
      (prop _ _ _ (by decide) _ (prop _ _ _ (by decide) _ h11)))
  have a12 : emph_end ∉ x5 := by
    rw [hx5, hx4, hx3, hx2, hx1]
    exact prop _ _ _ (by decide) _ (prop _ _ _ (by decide) _
      (prop _ _ _ (by decide) _ (prop _ _ _ (by decide) _
        (prop _ _ _ (by decide) _ h12))))
  have aamp : '&' ∉ x6 := by
    rw [hx6, hx5, hx4, hx3, hx2, hx1]
    exact prop _ _ _ (by decide) _ (prop _ _ _ (by decide) _
      (prop _ _ _ (by decide) _ (prop _ _ _ (by decide) _
        (prop _ _ _ (by decide) _ (prop _ _ _ (by decide) _ hamp)))))
  rw [htmlUnescapeL_id x6 aamp]
  rw [hx6, replace_roundtrip "</em>".toList emph_end (by decide) (by decide)
    x5 a12]
  rw [hx5, replace_roundtrip "<em>".toList emph_start (by decide) (by decide)
    x4 a11]
  rw [hx4, replace_roundtrip "</strong>".toList stng_end (by decide) (by decide)
    x3 a10]
  rw [hx3, replace_roundtrip "<strong>".toList stng_start (by decide) (by decide)
    x2 a16]
  rw [hx2, replace_roundtrip "</code>".toList code_end (by decide) (by decide)
    x1 a8]
  rw [hx1, replace_roundtrip "<code>".toList code_start (by decide) (by decide)
    s h7]

/-- **C9.** For every flattened node text built from arbitrarily nested
instances of the three inline tags over plain text (leaves free of the
private marker bytes and of `'&'`), encoding the tags into the paired
single-byte markers and then decoding the markers restores the original
tagged text exactly. -/
theorem marker_codec_roundtrip (t : InlineTree) (h : leavesGood t = true) :
    decodeTags (encodeTags (serialize t)) = serialize t := by
  have hall := serialize_all_good t h
  have hno : ∀ m : Char, goodChar m = false → m ∉ serialize t :=
    fun m hm => not_mem_of_all_good _ hall m hm
  exact codec_roundtrip_string (serialize t)
    (hno _ (by decide)) (hno _ (by decide)) (hno _ (by decide))
    (hno _ (by decide)) (hno _ (by decide)) (hno _ (by decide))
    (hno _ (by decide))

/-! ### split_blocks (source lines 544-572), the table branch (715-774)
and claim C2 -/

/-- Python `range(start, stop, step)` for a non-negative step, via fuel
(sufficient fuel is `stop` when `step ≥ 1`). -/
def posRangeAux : Nat → Nat → Nat → Nat → List Nat
  | 0, _, _, _ => []
  | fuel + 1, start, stop, step =>
    if start < stop then start :: posRangeAux fuel (start + step) stop step
    else []

/-- Python `range(start, stop, step)` with `step ≥ 1` (callers exclude
`step = 0`, a `ValueError`). -/
def posRange (start stop step : Nat) : List Nat :=
  posRangeAux stop start stop step

/-- The continuation-chunk prefix `' ' + col(txt_block_cut, L, no_reset=1)`
of `split_blocks` (source line 557). -/
def contPrefix (st : MdvState) : List Char :=
  ' ' :: (col st (strOfChar txt_block_cut) Lcol 0 true).toList

/-- One line's chunk list inside `split_blocks` (source lines 548-560):
after `line = line.ljust(w)`, the first chunk is `line[:cols]`, and the
subsequent chunks are the continuation prefix plus `line[i:i+scols]` for
`i in range(cols, len(line), scols)` with `scols = cols - 2`.  For
`cols < 2` Python's negative-step range is empty; `cols = 2` (step
zero, `ValueError`) is excluded by the caller. -/
def lineParts (st : MdvState) (line : List Char) (w cols : Nat) :
    List (List Char) :=
  let lj := pyLjust line w
  let scols := cols - 2
  lj.take cols ::
    (if cols < 2 then []
     else (posRange cols lj.length scols).map
       (fun i => contPrefix st ++ ((lj.drop i).take scols)))

/-- `borders(t)`: `t[0] = t[-1] = low(t[0].replace('-', '─'))`
(source lines 721-722); `IndexError` on the empty list. -/
def bordersFn (st : MdvState) : List (List Char) → Option (List (List Char))
  | [] => none
  | h :: rest =>
    let x := (low st ⟨replaceL [Char.ofNat 45] [Char.ofNat 9472] h⟩).toList
    some (((h :: rest).set 0 x).set ((h :: rest).length - 1) x)

/-- Option-valued map written structurally: a Python `for` loop whose
body may raise. -/
def mapMO {α β : Type} (f : α → Option β) : List α → Option (List β)
  | [] => some []
  | a :: l =>
    match f a with
    | none => none
    | some b =>
      match mapMO f l with
      | none => none
      | some r => some (b :: r)

/-- The body of the `block_part_nr` loop of `split_blocks` (source lines
563-570): collect chunk `bpn` of every line (`IndexError` → `none`),
apply the `borders` part formatter (the table branch always passes
`part_fmter=borders`), recolor `tpart[1]` with `H3` (`IndexError` on
fewer than two lines), and join with newlines. -/
def blockOf (st : MdvState) (ts : List (List (List Char))) (bpn : Nat) :
    Option (List Char) :=
  match mapMO (fun lb => lb[bpn]?) ts with
  | none => none
  | some tp0 =>
    match bordersFn st tp0 with
    | none => none
    | some tpart =>
      match tpart with
      | a :: b :: rest =>
        some (joinNl (a :: (col st (String.mk b) st.hH3 0 false).toList :: rest))
      | _ => none

/-- `split_blocks(text_block, w, cols, part_fmter=borders)` (source
lines 544-572).  `cols = 2` makes the range step zero (`ValueError`);
an empty `text_block` makes `ts[0]` raise. -/
def split_blocks (st : MdvState) (text_block : String) (w cols : Nat) :
    Option String :=
  if cols = 2 then none
  else
    let ts := (pySplitlines text_block).map (fun l => lineParts st l.toList w cols)
    match ts with
    | [] => none
    | t0 :: _ =>
      match mapMO (blockOf st ts) (List.range t0.length) with
      | none => none
      | some blocks => some ("\n" ++ (String.mk (joinNl blocks)) ++ "\n")

/-- `len(tbl.split('\n', 1)[0])` (source line 744): the width of the
first physical line of the tabulated string. -/
def tableWidth (tbl : String) : Nat :=
  (tbl.toList.takeWhile (fun c => c ≠ '\n')).length

/-- The `table` branch of the formatter (source lines 738-774), after
cell rendering and tabulation: `tbl` is the colored tabulate output and
`plain` the escape-stripped retabulation.  If the first tabulate line
fits the terminal (`w ≤ cols`), the bordered rows are emitted one per
output element, each indented `hir * left_indent`; otherwise the plain
table is vertically split and appended as a single output element. -/
def tableBranch (st : MdvState) (hir cols : Nat) (tbl plain : String) :
    Option (List String) :=
  let w := tableWidth tbl
  if w ≤ cols then
    match bordersFn st ((pySplitlines tbl).map String.toList) with
    | none => none
    | some t =>
      some (t.map (fun line => pyRepeatStr left_indent hir ++ String.mk line))
  else
    match split_blocks st plain w cols with
    | none => none
    | some s => some [s]

/-- Concatenation of the column ranges of a chunk list: the first chunk
whole, each later chunk with its continuation prefix removed. -/
def concatRanges (st : MdvState) (ps : List (List Char)) : List Char :=
  match ps with
  | [] => []
  | h :: t => h ++ (t.map (fun p => p.drop (contPrefix st).length)).flatten

/-- Counterexample to C2's exact-reconstruction clause: in a table of
plain width 5 cut at 4 terminal columns, the right-stripped row `"ab"`
is `ljust`-padded before cutting, so its chunks' column ranges
reassemble to `"ab   "`, not to the original line `"ab"`. -/
theorem table_split_not_exact :
    4 < 5 ∧ "ab".length ≤ 5 ∧
      concatRanges initState (lineParts initState "ab".toList 5 4) ≠
        "ab".toList := by
  decide

lemma posRange_ne_nil (start stop step : Nat) (h : start < stop) :
    posRange start stop step ≠ [] := by
  unfold posRange
  cases stop with
  | zero => omega
  | succ m =>
    simp only [posRangeAux, if_pos h]
    exact List.cons_ne_nil _ _

/-- Splitting a list into an initial segment and `step`-sized chunks
over the positions of `range(start, len, step)` loses nothing. -/
lemma chunk_decomp (step : Nat) (hstep : 0 < step) :
    ∀ (fuel start : Nat) (l : List Char), l.length - start ≤ fuel →
      l.take start ++
        ((posRangeAux fuel start l.length step).map
          (fun i => (l.drop i).take step)).flatten = l := by
  intro fuel
  induction fuel with
  | zero =>
    intro start l h
    simp only [posRangeAux, List.map_nil, List.flatten_nil, List.append_nil]
    exact List.take_of_length_le (by omega)
  | succ n ih =>
    intro start l h
    simp only [posRangeAux]
    by_cases hlt : start < l.length
    · rw [if_pos hlt]
      simp only [List.map_cons, List.flatten_cons]
      rw [← List.append_assoc, ← List.take_add]
      exact ih (start + step) l (by omega)
    · rw [if_neg hlt]
      simp only [List.map_nil, List.flatten_nil, List.append_nil]
      exact List.take_of_length_le (by omega)

lemma concatRanges_lineParts (st : MdvState) (l : List Char) (w cols : Nat)
    (h2 : 2 < cols) :
    concatRanges st (lineParts st l w cols) = pyLjust l w := by
  simp only [lineParts, concatRanges]
  rw [if_neg (by omega : ¬ cols < 2)]
  rw [List.map_map]
  have hmap : ((fun p => p.drop (contPrefix st).length) ∘
      (fun i => contPrefix st ++ ((pyLjust l w).drop i).take (cols - 2))) =
      (fun i => ((pyLjust l w).drop i).take (cols - 2)) := by
    funext i
    simp only [Function.comp]
    exact List.drop_left _ _
  rw [hmap]
  exact chunk_decomp (cols - 2) (by omega) (pyLjust l w).length cols
    (pyLjust l w) (Nat.sub_le _ _)

lemma lineParts_length (st : MdvState) (l : List Char) (w cols : Nat)
    (h2 : 2 < cols) (hlw : l.length ≤ w) :
    (lineParts st l w cols).length = (posRange cols w (cols - 2)).length + 1 := by
  simp only [lineParts]
  rw [if_neg (by omega : ¬ cols < 2)]
  have hlen : (pyLjust l w).length = w := by
    simp only [pyLjust, List.length_append, List.length_replicate]
    omega
  rw [hlen, List.length_cons, List.length_map]

lemma two_le_lineParts_length (st : MdvState) (l : List Char) (w cols : Nat)
    (h2 : 2 < cols) (hcw : cols < w) :
    2 ≤ (lineParts st l w cols).length := by
  simp only [lineParts]
  rw [if_neg (by omega : ¬ cols < 2)]
  rw [List.length_cons, List.length_map]
  have hne : posRange cols (pyLjust l w).length (cols - 2) ≠ [] := by
    apply posRange_ne_nil
    simp only [pyLjust, List.length_append, List.length_replicate]
    omega
  have hpos := List.length_pos.mpr hne
  omega

lemma mapMO_some_of_all {α β : Type} (f : α → Option β) :
    ∀ l : List α, (∀ a ∈ l, ∃ b, f a = some b) →
      ∃ r, mapMO f l = some r ∧ r.length = l.length := by
  intro l
  induction l with
  | nil => intro _; exact ⟨[], rfl, rfl⟩
  | cons a t ih =>
    intro h
    obtain ⟨b, hb⟩ := h a (List.mem_cons_self a t)
    obtain ⟨r, hr, hrl⟩ := ih (fun x hx => h x (List.mem_cons_of_mem a hx))
    exact ⟨b :: r, by simp only [mapMO, hb, hr], by simp [hrl]⟩

lemma exists_cons_cons_of_two_le {α : Type} (l : List α) (h : 2 ≤ l.length) :
    ∃ a b t, l = a :: b :: t := by
  match l with
  | [] => simp at h
  | [a] => simp at h
  | a :: b :: t => exact ⟨a, b, t, rfl⟩

lemma bordersFn_cons (st : MdvState) (a b : List Char) (r : List (List Char)) :
    ∃ a2 b2 t2, bordersFn st (a :: b :: r) = some (a2 :: b2 :: t2) := by
  obtain ⟨a2, b2, t2, h⟩ := exists_cons_cons_of_two_le
    (((a :: b :: r).set 0
        ((low st ⟨replaceL [Char.ofNat 45] [Char.ofNat 9472] a⟩).toList)).set
      ((a :: b :: r).length - 1)
      ((low st ⟨replaceL [Char.ofNat 45] [Char.ofNat 9472] a⟩).toList))
    (by simp [List.length_set])
  exact ⟨a2, b2, t2, by simp only [bordersFn]; rw [h]⟩

lemma blockOf_some (st : MdvState) (ts : List (List (List Char))) (bpn N : Nat)
    (hall : ∀ lb ∈ ts, lb.length = N) (hbpn : bpn < N) (hts : 2 ≤ ts.length) :
    ∃ b, blockOf st ts bpn = some b := by
  obtain ⟨tp0, htp0, hlen⟩ := mapMO_some_of_all (fun lb => lb[bpn]?) ts
    (fun lb hlb =>
      ⟨_, List.getElem?_eq_getElem (by rw [hall lb hlb]; exact hbpn)⟩)
  have h2 : 2 ≤ tp0.length := by omega
  obtain ⟨a, b0, r, hcc⟩ := exists_cons_cons_of_two_le tp0 h2
  rw [hcc] at htp0
  obtain ⟨a2, b2, t2, hbb⟩ := bordersFn_cons st a b0 r
  refine ⟨joinNl (a2 :: (col st (String.mk b2) st.hH3 0 false).toList :: t2), ?_⟩
  simp only [blockOf, htp0, hbb]

lemma split_blocks_some (st : MdvState) (plain : String) (w cols : Nat)
    (hgt2 : 2 < cols)
    (hlines : ∀ l ∈ pySplitlines plain, l.length ≤ w)
    (hrows : 2 ≤ (pySplitlines plain).length) :
    ∃ s, split_blocks st plain w cols = some s := by
  rcases hsp : pySplitlines plain with _ | ⟨l0, _ | ⟨l1, rest⟩⟩
  · rw [hsp] at hrows; simp at hrows
  · rw [hsp] at hrows; simp at hrows
  · have hmap : (pySplitlines plain).map (fun l => lineParts st l.toList w cols) =
        lineParts st l0.toList w cols ::
          (l1 :: rest).map (fun l => lineParts st l.toList w cols) := by
      rw [hsp, List.map_cons]
    have hallc : ∀ lb ∈ lineParts st l0.toList w cols ::
        (l1 :: rest).map (fun l => lineParts st l.toList w cols),
        lb.length = (posRange cols w (cols - 2)).length + 1 := by
      rw [← hmap]
      intro lb hlb
      obtain ⟨l, hl, rfl⟩ := List.mem_map.mp hlb
      exact lineParts_length st l.toList w cols hgt2 (hlines l hl)
    have htsl : 2 ≤ (lineParts st l0.toList w cols ::
        (l1 :: rest).map (fun l => lineParts st l.toList w cols)).length := by
      simp
    have hl0len : (lineParts st l0.toList w cols).length =
        (posRange cols w (cols - 2)).length + 1 :=
      hallc _ (List.mem_cons_self _ _)
    have hblocks : ∀ bpn ∈ List.range (lineParts st l0.toList w cols).length,
        ∃ b, blockOf st (lineParts st l0.toList w cols ::
          (l1 :: rest).map (fun l => lineParts st l.toList w cols)) bpn = some b := by
      intro bpn hbpn
      rw [List.mem_range] at hbpn
      exact blockOf_some st _ bpn ((posRange cols w (cols - 2)).length + 1)
        hallc (by omega) htsl
    obtain ⟨blocks, hbl, _⟩ := mapMO_some_of_all _ _ hblocks
    have hgoal : split_blocks st plain w cols =
        some ("\n" ++ (String.mk (joinNl blocks)) ++ "\n") := by
      simp only [split_blocks]
      rw [if_neg (by omega : ¬ cols = 2)]
      rw [hmap]
      simp only [hbl]
    exact ⟨_, hgoal⟩

/-- **C2 (amended).** With the table width `w` taken from the first
tabulated line: if `w ≤ cols` the table is rendered as one bordered
piece, one output element per row, each indented `hir * left_indent`
(never split); if `cols < w` (with `2 < cols`, every plain line at most
`w` wide, and at least two rows) the plain table is split successfully
into a single appended string, each physical line is cut into two or
more chunks, and concatenating the column ranges of a line's chunks
reconstructs that line padded with `ljust` to width `w` (not the line
itself: tabulate right-strips rows, see the counterexample). -/
theorem table_fit_or_split (st : MdvState) (hir cols : Nat) (tbl plain : String)
    (hgt2 : 2 < cols)
    (hlines : ∀ l ∈ pySplitlines plain, l.length ≤ tableWidth tbl)
    (hrows : 2 ≤ (pySplitlines plain).length) :
    (tableWidth tbl ≤ cols →
      tableBranch st hir cols tbl plain =
        (bordersFn st ((pySplitlines tbl).map String.toList)).map
          (fun t => t.map (fun line =>
            pyRepeatStr left_indent hir ++ String.mk line))) ∧
    (cols < tableWidth tbl →
      (∃ s, tableBranch st hir cols tbl plain = some [s]) ∧
      ∀ l ∈ pySplitlines plain,
        2 ≤ (lineParts st l.toList (tableWidth tbl) cols).length ∧
        concatRanges st (lineParts st l.toList (tableWidth tbl) cols) =
          pyLjust l.toList (tableWidth tbl)) := by
  constructor
  · intro hfit
    simp only [tableBranch]
    rw [if_pos hfit]
    cases hb : bordersFn st ((pySplitlines tbl).map String.toList) <;>
      simp [hb]
  · intro hwide
    constructor
    · obtain ⟨s, hs⟩ := split_blocks_some st plain (tableWidth tbl) cols
        hgt2 hlines hrows
      refine ⟨s, ?_⟩
      simp only [tableBranch]
      rw [if_neg (by omega : ¬ tableWidth tbl ≤ cols)]
      rw [hs]
    · intro l hl
      exact ⟨two_le_lineParts_length st l.toList (tableWidth tbl) cols hgt2 hwide,
        concatRanges_lineParts st l.toList (tableWidth tbl) cols hgt2⟩

/-- Witness for the amended C2: a one-column table of plain width 5 at
3 terminal columns, hierarchy 1. -/
theorem table_fit_or_split_witness :
    (2 < 3 ∧
      (∀ l ∈ pySplitlines "-----\nab\n-----",
        l.length ≤ tableWidth "-----\nab\n-----") ∧
      2 ≤ (pySplitlines "-----\nab\n-----").length) ∧
    ((tableWidth "-----\nab\n-----" ≤ 3 →
      tableBranch initState 1 3 "-----\nab\n-----" "-----\nab\n-----" =
        (bordersFn initState
            ((pySplitlines "-----\nab\n-----").map String.toList)).map
          (fun t => t.map (fun line =>
            pyRepeatStr left_indent 1 ++ String.mk line))) ∧
    (3 < tableWidth "-----\nab\n-----" →
      (∃ s, tableBranch initState 1 3 "-----\nab\n-----" "-----\nab\n-----" =
        some [s]) ∧
      ∀ l ∈ pySplitlines "-----\nab\n-----",
        2 ≤ (lineParts initState l.toList (tableWidth "-----\nab\n-----") 3).length ∧
        concatRanges initState
            (lineParts initState l.toList (tableWidth "-----\nab\n-----") 3) =
          pyLjust l.toList (tableWidth "-----\nab\n-----"))) :=
  ⟨⟨by decide, by decide, by decide⟩,
    table_fit_or_split initState 1 3 "-----\nab\n-----" "-----\nab\n-----"
      (by decide) (by decide) (by decide)⟩

/-- Witness for C9: `<em>a<code>b</code></em>` with nested tags. -/
theorem marker_codec_roundtrip_witness :
    decodeTags (encodeTags (serialize
      (InlineTree.em (InlineTree.seq (InlineTree.text "a".toList)
        (InlineTree.codeTag (InlineTree.text "b".toList))))))
      = serialize (InlineTree.em (InlineTree.seq (InlineTree.text "a".toList)
        (InlineTree.codeTag (InlineTree.text "b".toList)))) :=
  marker_codec_roundtrip
    (InlineTree.em (InlineTree.seq (InlineTree.text "a".toList)
      (InlineTree.codeTag (InlineTree.text "b".toList)))) (by decide)

end Mdv
